import Mathlib

/-!
Verification development for the pipeline parsing and execution engine of
`mysh.py` (a Python interactive shell).  The parser `parse_command_line`
and the driver `run_pipeline` are embedded shallowly: text is `List Char`,
the quote-aware tokenizer `shlex.split` is the state machine `scan`,
fallible code returns `Except`/`Option`, and the operating-system effects
of the individual builtin handlers and of external processes are
abstracted into an explicit environment `Env` (the driver's control flow
only depends on the outcomes those calls produce).
-/

/-- Text is modelled as a list of characters. -/
abbrev Str := List Char

/-- Coerce a Lean string literal to the character-list representation. -/
def str (s : String) : Str := s.data

/-- Whitespace recognised by Python's `shlex` tokenizer
(`shlex.whitespace = " \t\r\n"`). -/
def isShWs (c : Char) : Bool := c = ' ' ∨ c = '\t' ∨ c = '\r' ∨ c = '\n'

/-- ASCII whitespace stripped by Python's `str.strip()` / split by
`str.split()` with no argument. -/
def isPyWs (c : Char) : Bool :=
  c = ' ' ∨ c = '\t' ∨ c = '\n' ∨ c = '\r' ∨ c = '\x0b' ∨ c = '\x0c'

/-- States of the `shlex` tokenizer in POSIX mode with
`whitespace_split=True` (the configuration used by `shlex.split`):
outside a token, inside an unquoted token, inside single quotes, inside
double quotes, after a backslash outside quotes, after a backslash inside
double quotes. -/
inductive SplitState | ready | word | single | double | escWord | escDouble
deriving DecidableEq, Repr

/-- The `shlex.split` state machine.  `acc` is the token being built,
`toks` the tokens already emitted.  Single quotes protect everything,
double quotes protect everything except `\"` and `\\`, a backslash
outside quotes escapes any character; inside double quotes a backslash
followed by anything other than `"` or `\` is kept literally together
with the following character.  An open quote at end of input raises
`No closing quotation`; a trailing backslash raises
`No escaped character`. -/
def scan : SplitState → Str → Str → List Str → Except String (List Str)
  | .ready, _, [], toks => .ok toks
  | .word, acc, [], toks => .ok (toks ++ [acc])
  | .single, _, [], _ => .error "No closing quotation"
  | .double, _, [], _ => .error "No closing quotation"
  | .escWord, _, [], _ => .error "No escaped character"
  | .escDouble, _, [], _ => .error "No escaped character"
  | .ready, _, c :: rest, toks =>
    if isShWs c then scan .ready [] rest toks
    else if c = '\'' then scan .single [] rest toks
    else if c = '"' then scan .double [] rest toks
    else if c = '\\' then scan .escWord [] rest toks
    else scan .word [c] rest toks
  | .word, acc, c :: rest, toks =>
    if isShWs c then scan .ready [] rest (toks ++ [acc])
    else if c = '\'' then scan .single acc rest toks
    else if c = '"' then scan .double acc rest toks
    else if c = '\\' then scan .escWord acc rest toks
    else scan .word (acc ++ [c]) rest toks
  | .single, acc, c :: rest, toks =>
    if c = '\'' then scan .word acc rest toks else scan .single (acc ++ [c]) rest toks
  | .double, acc, c :: rest, toks =>
    if c = '"' then scan .word acc rest toks
    else if c = '\\' then scan .escDouble acc rest toks
    else scan .double (acc ++ [c]) rest toks
  | .escWord, acc, c :: rest, toks => scan .word (acc ++ [c]) rest toks
  | .escDouble, acc, c :: rest, toks =>
    if c = '"' ∨ c = '\\' then scan .double (acc ++ [c]) rest toks
    else scan .double (acc ++ ['\\', c]) rest toks

/-- `shlex.split(s)`: tokenize `s`, or fail with the `ValueError` message. -/
def shlexSplit (s : Str) : Except String (List Str) := scan .ready [] s []

/-- The quote-state transition of the tokenizer, with the token
bookkeeping dropped: the same state transitions as `scan`, used to say
when a character position of a line lies inside a quoted substring. -/
def quoteStep (st : SplitState) (c : Char) : SplitState :=
  match st with
  | .ready =>
    if isShWs c then .ready
    else if c = '\'' then .single
    else if c = '"' then .double
    else if c = '\\' then .escWord
    else .word
  | .word =>
    if isShWs c then .ready
    else if c = '\'' then .single
    else if c = '"' then .double
    else if c = '\\' then .escWord
    else .word
  | .single => if c = '\'' then .word else .single
  | .double => if c = '"' then .word else if c = '\\' then .escDouble else .double
  | .escWord => .word
  | .escDouble => .double

/-- Quote state of the tokenizer after reading `s` from the initial state. -/
def quoteState (s : Str) : SplitState := s.foldl quoteStep .ready

/-- Boolean prefix test on character lists. -/
def isPre : Str → Str → Bool
  | [], _ => true
  | _ :: _, [] => false
  | c :: p, d :: s => c = d && isPre p s

/-- Split `s` at the first occurrence of the pattern `pat`, returning the
text before and after it, or `none` when `pat` does not occur.  This is
Python's `pat in s` test combined with `s.split(pat, 1)`. -/
def splitFirst (pat : Str) : Str → Option (Str × Str)
  | [] => none
  | c :: rest =>
    if isPre pat (c :: rest) then some ([], (c :: rest).drop pat.length)
    else
      match splitFirst pat rest with
      | some (a, b) => some (c :: a, b)
      | none => none

/-- Python's `line.split("|")` for the one-character separator:
every occurrence of `c` separates chunks, empty chunks included. -/
def splitChar (c : Char) : Str → List Str
  | [] => [[]]
  | d :: rest =>
    if d = c then [] :: splitChar c rest
    else
      match splitChar c rest with
      | [] => [[d]]
      | t :: ts => (d :: t) :: ts

/-- Python's `s.lstrip()`. -/
def lstrip (s : Str) : Str := s.dropWhile isPyWs

/-- Python's `s.strip()`: remove leading and trailing whitespace. -/
def pyStrip (s : Str) : Str := ((s.dropWhile isPyWs).reverse.dropWhile isPyWs).reverse

/-- Python's `s.split()` with no argument: the maximal runs of
non-whitespace characters, in order. -/
def pySplit : Str → List Str
  | [] => []
  | c :: rest =>
    if isPyWs c then pySplit rest
    else
      match rest with
      | [] => [[c]]
      | d :: _ =>
        if isPyWs d then [c] :: pySplit rest
        else
          match pySplit rest with
          | [] => [[c]]
          | t :: ts => (c :: t) :: ts

/-- The redirection target extracted from the text after a redirection
operator: `rest.strip().split()[0] if rest.strip() else None`. -/
def firstOutToken (rest : Str) : Option Str :=
  match pySplit (pyStrip rest) with
  | [] => none
  | t :: _ => some t

/-- One pipeline stage as produced by `parse_command_line`: the tuple
`(argv, out_path, append)` of the source. -/
structure Stage where
  argv : List Str
  out_path : Option Str
  append : Bool
deriving DecidableEq, Repr

/-- Parse one pipe-separated segment (already stripped): check for the
two-character append operator `>>` first, else for the one-character
truncate operator `>`, tokenize the text before the operator with
`shlexSplit`, and take the first whitespace-delimited token after the
operator as the target path. -/
def parseSeg (s : Str) : Except String Stage :=
  match splitFirst (str ">>") s with
  | some (part, rest) =>
    (shlexSplit part).map (fun argv => ⟨argv, firstOutToken rest, true⟩)
  | none =>
    match splitFirst (str ">") s with
    | some (part, rest) =>
      (shlexSplit part).map (fun argv => ⟨argv, firstOutToken rest, false⟩)
    | none => (shlexSplit s).map (fun argv => ⟨argv, none, false⟩)

/-- Effectful traversal of a list with an `Except`-returning function,
stopping at the first error — the behaviour of the Python `for` loop in
`parse_command_line`, where a `ValueError` from `shlex.split` propagates. -/
def mapExcept (f : α → Except ε β) : List α → Except ε (List β)
  | [] => .ok []
  | x :: xs =>
    match f x with
    | .error e => .error e
    | .ok y =>
      match mapExcept f xs with
      | .error e => .error e
      | .ok ys => .ok (y :: ys)

/-- `parse_command_line(line)`: split the raw line on `|`, strip each
part, and parse each segment.  A `ValueError` raised by `shlex.split`
propagates out of the function (modelled as the `Except.error` case). -/
def parse_command_line (line : Str) : Except String (List Stage) :=
  mapExcept parseSeg (List.map pyStrip (splitChar '|' line))

/-!
Execution model.  The builtin registry `BUILTINS` of the source maps
command names to handler functions; `exit` and `quit` share the handler
`builtin_exit`, and `elevate`, `admin` and `sudo` share
`builtin_elevate`.  `builtin_exit` unconditionally raises `SystemExit`;
every other handler performs operating-system input/output, so its
outcome (the text it prints to the captured stdout, a `SystemExit`, or
another exception) is supplied by the environment `Env`.
-/

/-- Tags for the distinct handler functions registered in `BUILTINS`. -/
inductive Handler
  | pwd | cd | ls | cat | head | tail | grep | cp | mv | rm
  | mkdir | rmdir | touch | find | info | history | clear
  | exit | whoami | elevate
deriving DecidableEq, Repr

/-- The builtin registry: the association list underlying the `BUILTINS`
dict of the source, in source order.  `exit` and `quit` are aliases of
the same handler, as are `elevate`, `admin` and `sudo`. -/
def BUILTINS : List (Str × Handler) :=
  [ (str "pwd", .pwd), (str "cd", .cd), (str "ls", .ls), (str "cat", .cat),
    (str "head", .head), (str "tail", .tail), (str "grep", .grep),
    (str "cp", .cp), (str "mv", .mv), (str "rm", .rm), (str "mkdir", .mkdir),
    (str "rmdir", .rmdir), (str "touch", .touch), (str "find", .find),
    (str "info", .info), (str "history", .history), (str "clear", .clear),
    (str "exit", .exit), (str "quit", .exit), (str "whoami", .whoami),
    (str "elevate", .elevate), (str "admin", .elevate), (str "sudo", .elevate) ]

/-- Dictionary lookup on an association list (`cmd in BUILTINS` /
`BUILTINS[cmd]`). -/
def lookupAssoc : List (Str × Handler) → Str → Option Handler
  | [], _ => none
  | q :: rest, c => if q.1 = c then some q.2 else lookupAssoc rest c

/-- Look a command name up in the builtin registry. -/
def lookupBuiltin (c : Str) : Option Handler := lookupAssoc BUILTINS c

/-- Outcome of calling one builtin handler: the text it printed to the
captured stdout, a `SystemExit`, or some other exception with message. -/
inductive BuiltinResult
  | ok (out : Str)
  | exit
  | err (msg : Str)

/-- Outcome of running an external command with `subprocess.Popen` and
`communicate`: captured stdout and stderr, a `FileNotFoundError`, or some
other exception (for example a timeout) with message. -/
inductive ExtResult
  | ok (out : Str) (err : Str)
  | notFound
  | err (msg : Str)

/-- Outcome of the redirection write of one stage, split into the two
phases of the source's `open(...)` followed by `f.write(...)` (lines
392-396): `ok` — `open` succeeded and `f.write` wrote the whole text;
`openErr e` — `open()` itself raised, before the target was touched;
`writeErr n e` — `open()` succeeded, so the target was already truncated
(truncate mode) or created (append mode), and `f.write` then raised after
`n` characters of the text had reached the file. -/
inductive WriteResult
  | ok
  | openErr (msg : Str)
  | writeErr (written : Nat) (msg : Str)

/-- The environment abstracting the operating system: outcomes of the
input/output performed by the builtin handlers, outcomes of external
commands, the phase-by-phase outcome of opening and writing a redirection
target, and `os.path.expanduser`. -/
structure Env where
  builtin : Handler → List Str → Option Str → BuiltinResult
  external : Str → List Str → Option Str → ExtResult
  write : Str → WriteResult
  expanduser : Str → Str

/-- Call a builtin handler.  `builtin_exit` is `sys.exit(0)`
unconditionally; the other handlers' outcomes come from the
environment. -/
def callBuiltin (env : Env) (h : Handler) (args : List Str) (d : Option Str) :
    BuiltinResult :=
  match h with
  | .exit => .exit
  | h => env.builtin h args d

/-- Observable state threaded through one `run_pipeline` call:
diagnostics printed to stderr by `eprint`, text printed to the real
stdout, the file system as seen through redirection writes, and the
current stdout sink (`false`: the real stdout; `true`: a capture
buffer). -/
structure RunState where
  diags : List Str
  printed : List Str
  files : List (Str × Str)
  sink : Bool
deriving DecidableEq, Repr

/-- Result of executing the builtin branch of one stage (source lines
356-371): captured text on normal return, `SystemExit` re-raised, or an
exception turned into a diagnostic followed by `return`. -/
inductive BExec
  | ok (text : Str) (st : RunState)
  | exited (st : RunState)
  | failed (st : RunState)

/-- The state carried by a builtin-branch result. -/
def BExec.state : BExec → RunState
  | .ok _ st => st
  | .exited st => st
  | .failed st => st

/-- The builtin branch of `run_pipeline`: save the stdout sink, redirect
it to a capture buffer, call the handler, and on every exit path restore
the saved sink — then either return the captured text, re-raise
`SystemExit`, or print `"<cmd>: error: <e>"` and abort. -/
def exec_builtin (env : Env) (cmd : Str) (h : Handler) (args : List Str)
    (d : Option Str) (st : RunState) : BExec :=
  let old := st.sink
  let stIn : RunState := { st with sink := true }
  match callBuiltin env h args d with
  | .exit => .exited { stIn with sink := old }
  | .err m =>
    .failed { stIn with
              sink := old
              diags := stIn.diags ++ [cmd ++ str ": error: " ++ m] }
  | .ok t => .ok t { stIn with sink := old }

/-- Content of a file, defaulting to empty for a file not yet written
(opening in append mode creates the file). -/
def getFile : List (Str × Str) → Str → Str
  | [], _ => []
  | q :: rest, p => if q.1 = p then q.2 else getFile rest p

/-- Write a file's content, replacing an existing entry. -/
def setFile : List (Str × Str) → Str → Str → List (Str × Str)
  | [], p, t => [(p, t)]
  | q :: rest, p, t => if q.1 = p then (p, t) :: rest else q :: setFile rest p t

/-- Redirection of one stage's captured text (source lines 391-399):
open `os.path.expanduser(out_path)` in truncate or append mode and write
the text; on any exception print `"redirection error: <e>"`.  A failure
of `open()` itself leaves the file system untouched; once `open()` has
succeeded the target already holds its mode-determined base (empty after
truncation in truncate mode, the old content in append mode, with an
absent target created empty), and a failure of `f.write` leaves that base
followed by the prefix of the text written before the exception. -/
def applyRedirect (env : Env) (out_path : Str) (append : Bool) (text : Str)
    (st : RunState) : RunState :=
  let p := env.expanduser out_path
  let base := if append then getFile st.files p else []
  match env.write p with
  | .ok => { st with files := setFile st.files p (base ++ text) }
  | .openErr e =>
    { st with diags := st.diags ++ [str "redirection error: " ++ e] }
  | .writeErr n e =>
    { st with
      files := setFile st.files p (base ++ text.take n)
      diags := st.diags ++ [str "redirection error: " ++ e] }

/-- Outcome of the loop body of `run_pipeline` for one stage: continue
with the text to thread to the next stage, or stop the whole pipeline
(an early `return` or a propagating `SystemExit`). -/
inductive StepOut
  | next (data : Option Str) (st : RunState)
  | halt (st : RunState) (r : Bool)

/-- How one `run_pipeline` call ends: fall off the end of the loop,
re-raise `SystemExit` to the enclosing read loop, or `return` early
after a diagnostic. -/
inductive RunResult | normal | exited | aborted
deriving DecidableEq, Repr

/-- The loop body of `run_pipeline` for one stage.  An empty argv is
skipped (`continue`).  A builtin runs through `exec_builtin`; otherwise
the external fallback runs the command, printing the stripped stderr when
non-empty, `"<cmd>: command not found"` and `return` on
`FileNotFoundError`, or `"<cmd>: error: <e>"` and `return` on any other
exception.  A truthy `out_path` sends the captured text to
`applyRedirect` and threads empty text; otherwise the captured text is
threaded. -/
def runStage (env : Env) (stage : Stage) (data : Option Str) (st : RunState) :
    StepOut :=
  match stage.argv with
  | [] => .next data st
  | cmd :: args =>
    let after := fun (t : Str) (st1 : RunState) =>
      match stage.out_path with
      | some p =>
        if p ≠ [] then StepOut.next (some []) (applyRedirect env p stage.append t st1)
        else StepOut.next (some t) st1
      | none => StepOut.next (some t) st1
    match lookupBuiltin cmd with
    | some h =>
      match exec_builtin env cmd h args data st with
      | .exited st1 => .halt st1 true
      | .failed st1 => .halt st1 false
      | .ok t st1 => after t st1
    | none =>
      match env.external cmd args data with
      | .notFound =>
        .halt { st with diags := st.diags ++ [cmd ++ str ": command not found"] } false
      | .err m =>
        .halt { st with diags := st.diags ++ [cmd ++ str ": error: " ++ m] } false
      | .ok t e =>
        after t (if e ≠ [] then { st with diags := st.diags ++ [pyStrip e] } else st)

/-- `run_pipeline(pipeline)`: thread `data` (initially `None`) through
the stages; after the last stage print the threaded text if truthy.  A
`halt` outcome of a stage stops the loop: `SystemExit` propagates
(`RunResult.exited`), an early `return` does not (`RunResult.aborted`). -/
def run_pipeline (env : Env) : List Stage → Option Str → RunState →
    RunState × RunResult
  | [], data, st =>
    match data with
    | some d =>
      if d ≠ [] then ({ st with printed := st.printed ++ [d] }, .normal)
      else (st, .normal)
    | none => (st, .normal)
  | stage :: rest, data, st =>
    match runStage env stage data st with
    | .next d1 st1 => run_pipeline env rest d1 st1
    | .halt st1 r => (st1, if r then .exited else .aborted)

/-!
Reconstruction of a pipeline's text, modelled from the spec (section 8):
each stage's argv joined with spaces with quoting restored, the
redirection operator and target re-inserted, and the stages joined with
the pipe separator.  Quoting is restored by wrapping every token in
single quotes, encoding an embedded single quote in the usual
close-quote, double-quoted quote, reopen-quote form.
-/

/-- Encode the characters of a token for inclusion between single
quotes: a single quote becomes the five characters of
close-quote, quoted quote, reopen-quote. -/
def escQ : Str → Str
  | [] => []
  | c :: cs => if c = '\'' then str "'\"'\"'" ++ escQ cs else c :: escQ cs

/-- Restore quoting around one token. -/
def shQuote (t : Str) : Str := '\'' :: (escQ t ++ ['\''])

/-- Join chunks with a separator (structural version of
`sep.join(chunks)`). -/
def interc (sep : Str) : List Str → Str
  | [] => []
  | [x] => x
  | x :: y :: rest => x ++ sep ++ interc sep (y :: rest)

/-- Textual reconstruction of one stage: the quoted argv joined with
spaces, followed by the stage's redirection operator and target when a
target is present. -/
def reconSeg (stg : Stage) : Str :=
  interc (str " ") (stg.argv.map shQuote) ++
    (match stg.out_path with
     | some p => (if stg.append then str " >> " else str " > ") ++ p
     | none => [])

/-- Textual reconstruction of a pipeline: the stage reconstructions
joined with the pipe separator. -/
def reconstruct (P : List Stage) : Str := interc (str " | ") (P.map reconSeg)

/-- The pattern `>>` occurs in `t`. -/
def hasGG (t : Str) : Prop := (splitFirst (str ">>") t).isSome = true

instance (t : Str) : Decidable (hasGG t) := by unfold hasGG; infer_instance

/-- Pipelines for which re-parsing the reconstruction is exact: no stage
records an append operator without a target, and no argv token contains
the two-character substring `>>`. -/
def GoodStage (stg : Stage) : Prop :=
  (stg.out_path = none → stg.append = false) ∧ ∀ t ∈ stg.argv, ¬ hasGG t

instance (stg : Stage) : Decidable (GoodStage stg) := by
  unfold GoodStage; infer_instance

/-!
Concrete environments and an initial state, used to evaluate the model on
concrete inputs.
-/

/-- The empty initial state: no diagnostics, nothing printed, no files,
stdout not redirected. -/
def st0 : RunState := ⟨[], [], [], false⟩

/-- Environment in which no external command can be launched and every
file write succeeds. -/
def envN : Env :=
  ⟨fun _ _ _ => .ok [], fun _ _ _ => .notFound, fun _ => .ok, fun p => p⟩

/-- Environment in which the command `nope` cannot be launched while any
other external command prints `HELLO`. -/
def env1 : Env :=
  ⟨fun _ _ _ => .ok [],
   fun c _ _ => if c = str "nope" then .notFound else .ok (str "HELLO") [],
   fun _ => .ok, fun p => p⟩

/-- Environment in which every external command prints `A` and every
file write succeeds. -/
def envT : Env :=
  ⟨fun _ _ _ => .ok [], fun _ _ _ => .ok (str "A") [], fun _ => .ok, fun p => p⟩

/-!
Shared lemmas.
-/

/-- A successful `mapExcept` preserves length. -/
theorem mapExcept_ok_length {f : α → Except ε β} :
    ∀ {xs : List α} {ys : List β}, mapExcept f xs = .ok ys → ys.length = xs.length := by
  intro xs
  induction xs with
  | nil => intro ys h; simp [mapExcept] at h; simp [← h]
  | cons x xs ih =>
    intro ys h
    simp only [mapExcept] at h
    cases hx : f x with
    | error e => rw [hx] at h; exact absurd h (by simp)
    | ok y =>
      rw [hx] at h
      cases hxs : mapExcept f xs with
      | error e => rw [hxs] at h; exact absurd h (by simp)
      | ok ys' =>
        rw [hxs] at h
        cases h
        simp [ih hxs]

/-- Every element of a successful `mapExcept` output comes from an input
element. -/
theorem mapExcept_ok_mem {f : α → Except ε β} :
    ∀ {xs : List α} {ys : List β}, mapExcept f xs = .ok ys →
      ∀ y ∈ ys, ∃ x ∈ xs, f x = .ok y := by
  intro xs
  induction xs with
  | nil =>
    intro ys h; simp [mapExcept] at h; intro y hy
    rw [h] at hy; cases hy
  | cons x xs ih =>
    intro ys h
    simp only [mapExcept] at h
    cases hx : f x with
    | error e => rw [hx] at h; exact absurd h (by simp)
    | ok y =>
      rw [hx] at h
      cases hxs : mapExcept f xs with
      | error e => rw [hxs] at h; exact absurd h (by simp)
      | ok ys' =>
        rw [hxs] at h
        cases h
        intro z hz
        rcases List.mem_cons.mp hz with hz | hz
        · exact ⟨x, List.mem_cons_self .., hz ▸ hx⟩
        · rcases ih hxs z hz with ⟨x', hx', hfx'⟩
          exact ⟨x', List.mem_cons_of_mem _ hx', hfx'⟩

/-- If every input element maps to a success, `mapExcept` succeeds. -/
theorem mapExcept_ok_of_forall {f : α → Except ε β} :
    ∀ {xs : List α}, (∀ x ∈ xs, ∃ y, f x = .ok y) →
      ∃ ys, mapExcept f xs = .ok ys := by
  intro xs
  induction xs with
  | nil => exact fun _ => ⟨[], rfl⟩
  | cons x xs ih =>
    intro h
    rcases h x (List.mem_cons_self ..) with ⟨y, hy⟩
    rcases ih (fun z hz => h z (List.mem_cons_of_mem _ hz)) with ⟨ys, hys⟩
    exact ⟨y :: ys, by simp [mapExcept, hy, hys]⟩

/-- Pointwise success determines the `mapExcept` output. -/
theorem mapExcept_ok_map {f : α → Except ε β} {g : α → β} :
    ∀ {xs : List α}, (∀ x ∈ xs, f x = .ok (g x)) →
      mapExcept f xs = .ok (xs.map g) := by
  intro xs
  induction xs with
  | nil => exact fun _ => rfl
  | cons x xs ih =>
    intro h
    simp [mapExcept, h x (List.mem_cons_self ..),
          ih (fun z hz => h z (List.mem_cons_of_mem _ hz))]

/-- Reading back a just-written file returns the written content. -/
theorem getFile_setFile (fs : List (Str × Str)) (p t : Str) :
    getFile (setFile fs p t) p = t := by
  induction fs with
  | nil => simp [setFile, getFile]
  | cons q rest ih =>
    by_cases h : q.1 = p
    · simp [setFile, getFile, h]
    · simp [setFile, getFile, h, ih]

/-- One run of a redirected external append stage, with a successful
write: the captured text is appended to the target and the run ends
normally with nothing printed. -/
theorem run_append_once (env : Env) (cmd : Str) (args : List Str) (p : Str)
    (data : Option Str) (st : RunState) (t : Str)
    (hb : lookupBuiltin cmd = none)
    (hx : env.external cmd args data = .ok t [])
    (hp : p ≠ [])
    (hw : env.write (env.expanduser p) = .ok) :
    run_pipeline env [⟨cmd :: args, some p, true⟩] data st =
      ({ st with files := setFile st.files (env.expanduser p)
                   (getFile st.files (env.expanduser p) ++ t) }, .normal) := by
  simp [run_pipeline, runStage, hb, hx, hp, applyRedirect, hw]

/-!
Claim theorems, part 1.
-/

/-- Claim C1, counterexample to the claim as stated: in a pipeline whose
first stage names the unlaunchable command `nope` and whose second stage
is an external command that would print `HELLO`, the run prints the
single diagnostic `nope: command not found` and aborts: the second stage
never runs (nothing is printed) — contradicting the claim that every
later stage still executes. -/
theorem c1_cex :
    run_pipeline env1 [⟨[str "nope"], none, false⟩, ⟨[str "ok"], none, false⟩] none st0 =
      (⟨[str "nope: command not found"], [], [], false⟩, .aborted) := rfl

/-- Claim C1 (amended): when a stage names a command that is neither a
builtin nor launchable as an external program, the run does not crash and
emits exactly one diagnostic containing the command name, but the
pipeline is aborted: the remaining stages are discarded and no final
output is printed. -/
theorem c1_amended (env : Env) (cmd : Str) (args : List Str) (op : Option Str)
    (ap : Bool) (rest : List Stage) (data : Option Str) (st : RunState)
    (hb : lookupBuiltin cmd = none)
    (hx : env.external cmd args data = .notFound) :
    run_pipeline env (⟨cmd :: args, op, ap⟩ :: rest) data st =
      ({ st with diags := st.diags ++ [cmd ++ str ": command not found"] }, .aborted) := by
  simp [run_pipeline, runStage, hb, hx]

/-- Claim C1, witness: the amended theorem evaluated at the command
`nosuch` in the environment where no external command can be launched. -/
theorem c1_witness :
    run_pipeline envN [⟨[str "nosuch"], none, false⟩] none st0 =
      ({ st0 with diags := st0.diags ++ [str "nosuch" ++ str ": command not found"] },
       .aborted) :=
  c1_amended envN (str "nosuch") [] none false [] none st0 (by decide) rfl

/-- Claim C4: a stage whose command is `exit` (or its alias `quit`)
halts the pipeline the moment it executes: the remaining stages are
discarded, the state is left untouched (the capture sink is restored
before re-raising), and the fatal-exit signal `RunResult.exited` — the
`SystemExit` raised by `builtin_exit` — is propagated to the enclosing
caller. -/
theorem c4_exit_halts (env : Env) (args : List Str) (op : Option Str) (ap : Bool)
    (rest : List Stage) (data : Option Str) (st : RunState) :
    run_pipeline env (⟨str "exit" :: args, op, ap⟩ :: rest) data st = (st, .exited) ∧
    run_pipeline env (⟨str "quit" :: args, op, ap⟩ :: rest) data st = (st, .exited) :=
  ⟨rfl, rfl⟩

/-- Claim C5, counterexample to the claim as stated: a stage with a
redirection descriptor but an empty argument vector (parsed, for
example, from the segment between the pipes of `a | > f | b`) is skipped
by the `continue` of the driver before redirection is considered: it
writes nothing and passes the incoming text `X` downstream unchanged
instead of empty text. -/
theorem c5_cex :
    runStage envN ⟨[], some (str "f"), false⟩ (some (str "X")) st0 =
      .next (some (str "X")) st0 ∧ str "X" ≠ [] :=
  ⟨rfl, by decide⟩

/-- Claim C5 (amended): for every stage with a nonempty argument vector
and a truthy redirection target whose stage body captured the text `t`
and whose execution continues the pipeline, the text passed downstream is
empty; if opening and writing the target succeed, exactly the captured
text `t` is written verbatim (appended to the old content in append mode,
replacing it in truncate mode); if opening or writing fails, a
`redirection error` diagnostic is emitted and the downstream text is
still empty (a failure of `open()` leaves the file system untouched,
while a failure during `f.write` leaves the truncated-or-created target
holding a prefix of `t`). -/
theorem c5_amended (env : Env) (cmd : Str) (args : List Str) (p : Str) (ap : Bool)
    (data : Option Str) (st : RunState) (d1 : Option Str) (st1 : RunState) (t : Str)
    (hp : p ≠ [])
    (hcap : (∃ h, lookupBuiltin cmd = some h ∧ callBuiltin env h args data = .ok t) ∨
            (lookupBuiltin cmd = none ∧ ∃ e, env.external cmd args data = .ok t e))
    (hrun : runStage env ⟨cmd :: args, some p, ap⟩ data st = .next d1 st1) :
    d1 = some [] ∧
    (env.write (env.expanduser p) = .ok →
      st1.files = setFile st.files (env.expanduser p)
        ((if ap then getFile st.files (env.expanduser p) else []) ++ t)) ∧
    (∀ e, env.write (env.expanduser p) = .openErr e →
      st1.files = st.files ∧
      ∃ pre, st1.diags = pre ++ [str "redirection error: " ++ e]) ∧
    (∀ n e, env.write (env.expanduser p) = .writeErr n e →
      st1.files = setFile st.files (env.expanduser p)
        ((if ap then getFile st.files (env.expanduser p) else []) ++ List.take n t) ∧
      ∃ pre, st1.diags = pre ++ [str "redirection error: " ++ e]) := by
  simp only [runStage] at hrun
  rcases hcap with ⟨hd, hb, hc⟩ | ⟨hb, e0, hx⟩
  · rw [hb] at hrun
    simp only [exec_builtin, hc] at hrun
    rw [if_pos hp] at hrun
    cases hw : env.write (env.expanduser p) with
    | ok =>
      simp only [applyRedirect, hw] at hrun
      cases hrun
      refine ⟨rfl, fun _ => rfl, ?_, ?_⟩
      · intro e he; cases he
      · intro n e he; cases he
    | openErr e1 =>
      simp only [applyRedirect, hw] at hrun
      cases hrun
      refine ⟨rfl, ?_, ?_, ?_⟩
      · intro h0; cases h0
      · intro e he
        injection he with h3
        subst h3
        exact ⟨rfl, st.diags, rfl⟩
      · intro n e he; cases he
    | writeErr n1 e1 =>
      simp only [applyRedirect, hw] at hrun
      cases hrun
      refine ⟨rfl, ?_, ?_, ?_⟩
      · intro h0; cases h0
      · intro e he; cases he
      · intro n e he
        injection he with h3 h4
        subst h3
        subst h4
        exact ⟨rfl, st.diags, rfl⟩
  · rw [hb] at hrun
    simp only [hx] at hrun
    rw [if_pos hp] at hrun
    cases hw : env.write (env.expanduser p) with
    | ok =>
      simp only [applyRedirect, hw] at hrun
      cases hrun
      refine ⟨rfl, ?_, ?_, ?_⟩
      · intro _
        by_cases he : e0 ≠ [] <;> simp [he]
      · intro e he; cases he
      · intro n e he; cases he
    | openErr e1 =>
      simp only [applyRedirect, hw] at hrun
      cases hrun
      refine ⟨rfl, ?_, ?_, ?_⟩
      · intro h0; cases h0
      · intro e he
        injection he with h3
        subst h3
        constructor
        · by_cases he2 : e0 ≠ [] <;> simp [he2]
        · by_cases he2 : e0 ≠ []
          · exact ⟨st.diags ++ [pyStrip e0], by simp [he2]⟩
          · exact ⟨st.diags, by simp [he2]⟩
      · intro n e he; cases he
    | writeErr n1 e1 =>
      simp only [applyRedirect, hw] at hrun
      cases hrun
      refine ⟨rfl, ?_, ?_, ?_⟩
      · intro h0; cases h0
      · intro e he; cases he
      · intro n e he
        injection he with h3 h4
        subst h3
        subst h4
        constructor
        · by_cases he2 : e0 ≠ [] <;> simp [he2]
        · by_cases he2 : e0 ≠ []
          · exact ⟨st.diags ++ [pyStrip e0], by simp [he2]⟩
          · exact ⟨st.diags, by simp [he2]⟩

/-- Claim C5, witness: the amended theorem evaluated at a concrete
external stage `x > f` whose captured text is `A`, in the environment
where every external command prints `A` and writes succeed. -/
theorem c5_witness :
    (some [] : Option Str) = some [] ∧
    (envT.write (envT.expanduser (str "f")) = .ok →
      (⟨[], [], [(str "f", str "A")], false⟩ : RunState).files =
        setFile st0.files (envT.expanduser (str "f"))
          ((if false then getFile st0.files (envT.expanduser (str "f")) else []) ++
            str "A")) ∧
    (∀ e, envT.write (envT.expanduser (str "f")) = .openErr e →
      (⟨[], [], [(str "f", str "A")], false⟩ : RunState).files = st0.files ∧
      ∃ pre, (⟨[], [], [(str "f", str "A")], false⟩ : RunState).diags =
        pre ++ [str "redirection error: " ++ e]) ∧
    (∀ n e, envT.write (envT.expanduser (str "f")) = .writeErr n e →
      (⟨[], [], [(str "f", str "A")], false⟩ : RunState).files =
        setFile st0.files (envT.expanduser (str "f"))
          ((if false then getFile st0.files (envT.expanduser (str "f")) else []) ++
            List.take n (str "A")) ∧
      ∃ pre, (⟨[], [], [(str "f", str "A")], false⟩ : RunState).diags =
        pre ++ [str "redirection error: " ++ e]) :=
  c5_amended envT (str "x") [] (str "f") false none st0 (some [])
    ⟨[], [], [(str "f", str "A")], false⟩ (str "A") (by decide)
    (Or.inr ⟨by decide, [], rfl⟩) rfl

/-- Claim C9: the builtin branch of the driver restores the redirected
output-capture sink on every exit path — normal return, exception turned
into a diagnostic, and propagating `SystemExit` — so after the branch the
sink equals what it was before the stage ran. -/
theorem c9_sink_restored (env : Env) (cmd : Str) (hd : Handler)
    (args : List Str) (d : Option Str) (st : RunState) :
    (exec_builtin env cmd hd args d st).state.sink = st.sink := by
  unfold exec_builtin
  cases callBuiltin env hd args d <;> rfl

/-- Claim C10: a stage with an empty argument vector (for example one
produced by doubled pipe separators) is skipped by the driver, and the
threaded text entering it is delivered unchanged as the input of the
remaining stages. -/
theorem c10_empty_stage (env : Env) (op : Option Str) (ap : Bool)
    (rest : List Stage) (data : Option Str) (st : RunState) :
    run_pipeline env (⟨[], op, ap⟩ :: rest) data st = run_pipeline env rest data st := rfl

/-- Claim C8: an input line with a literal pipe character inside a quoted
substring on which the parser nevertheless splits: in
`cmd > a' | x > 'b` the tokenizer is inside single quotes when the pipe
is reached (first conjunct, with the decomposition as second conjunct),
yet `parse_command_line` treats the quoted pipe as a stage separator and
returns two stages, because the pipe split happens before the quote-aware
tokenization. -/
theorem c8_quoted_pipe :
    quoteState (str "cmd > a' ") = SplitState.single ∧
    str "cmd > a' | x > 'b" = str "cmd > a' " ++ '|' :: str " x > 'b" ∧
    parse_command_line (str "cmd > a' | x > 'b") =
      .ok [⟨[str "cmd"], some (str "a'"), false⟩, ⟨[str "x"], some (str "'b"), false⟩] :=
  ⟨rfl, rfl, rfl⟩

/-- Claim C6: the parser checks the two-character append operator before
the one-character truncate operator — a parsed stage is in append mode
exactly when its segment contains `>>` (conjunct 2), and `cmd >> out.txt`
parses to an append-mode stage (conjunct 1); executing an append-mode
redirected stage appends the captured text to the target (conjunct 3), so
running the same redirected command twice yields the concatenation of
both outputs in the file rather than only the last one (conjunct 4). -/
theorem c6_append_before_truncate :
    (parse_command_line (str "cmd >> out.txt") =
      .ok [⟨[str "cmd"], some (str "out.txt"), true⟩]) ∧
    (∀ s stg, parseSeg s = .ok stg →
      (stg.append = true ↔ (splitFirst (str ">>") s).isSome = true)) ∧
    (∀ (env : Env) (cmd : Str) (args : List Str) (p : Str) (data : Option Str)
       (st : RunState) (t : Str),
      lookupBuiltin cmd = none → env.external cmd args data = .ok t [] →
      p ≠ [] → env.write (env.expanduser p) = .ok →
      getFile ((run_pipeline env [⟨cmd :: args, some p, true⟩] data st).1).files
          (env.expanduser p) =
        getFile st.files (env.expanduser p) ++ t) ∧
    (∀ (env : Env) (cmd : Str) (args : List Str) (p : Str) (data : Option Str)
       (st : RunState) (t : Str),
      lookupBuiltin cmd = none → env.external cmd args data = .ok t [] →
      p ≠ [] → env.write (env.expanduser p) = .ok →
      getFile ((run_pipeline env [⟨cmd :: args, some p, true⟩] data
          (run_pipeline env [⟨cmd :: args, some p, true⟩] data st).1).1).files
          (env.expanduser p) =
        (getFile st.files (env.expanduser p) ++ t) ++ t) := by
  refine ⟨rfl, ?_, ?_, ?_⟩
  · intro s stg h
    rcases hgg : splitFirst (str ">>") s with _ | ⟨a, b⟩
    · rcases hg : splitFirst (str ">") s with _ | ⟨a, b⟩
      · simp only [parseSeg, hgg, hg] at h
        cases hs : shlexSplit s with
        | error e => simp only [hs, Except.map] at h; cases h
        | ok argv => simp only [hs, Except.map] at h; cases h; simp [hgg]
      · simp only [parseSeg, hgg, hg] at h
        cases hs : shlexSplit a with
        | error e => simp only [hs, Except.map] at h; cases h
        | ok argv => simp only [hs, Except.map] at h; cases h; simp [hgg]
    · simp only [parseSeg, hgg] at h
      cases hs : shlexSplit a with
      | error e => simp only [hs, Except.map] at h; cases h
      | ok argv => simp only [hs, Except.map] at h; cases h; simp [hgg]
  · intro env cmd args p data st t hb hx hp hw
    rw [run_append_once env cmd args p data st t hb hx hp hw]
    simp [getFile_setFile]
  · intro env cmd args p data st t hb hx hp hw
    rw [run_append_once env cmd args p data st t hb hx hp hw]
    rw [show (({ st with files := (setFile st.files (env.expanduser p) (getFile st.files (env.expanduser p) ++ t)) }, RunResult.normal).1 : RunState) = { st with files := (setFile st.files (env.expanduser p) (getFile st.files (env.expanduser p) ++ t)) } from rfl]
    rw [run_append_once env cmd args p data _ t hb hx hp hw]
    simp [getFile_setFile]

/-- Claim C6, witness: the appending conjuncts of the theorem evaluated
at the concrete external stage `x >> f` in the environment where every
external command prints `A`: running it twice yields the doubled
content. -/
theorem c6_witness :
    getFile ((run_pipeline envT [⟨[str "x"], some (str "f"), true⟩] none
        (run_pipeline envT [⟨[str "x"], some (str "f"), true⟩] none st0).1).1).files
        (envT.expanduser (str "f")) =
      (getFile st0.files (envT.expanduser (str "f")) ++ str "A") ++ str "A" :=
  c6_append_before_truncate.2.2.2 envT (str "x") [] (str "f") none st0 (str "A")
    (by decide) rfl (by decide) rfl

/-!
Claim theorems, part 2: the parser-level claims C2 and C3.
-/

/-- One step of `scan` from the `ready` state. -/
theorem scan_ready_cons (acc : Str) (c : Char) (rest : Str) (toks : List Str) :
    scan .ready acc (c :: rest) toks =
      if isShWs c then scan .ready [] rest toks
      else if c = '\'' then scan .single [] rest toks
      else if c = '"' then scan .double [] rest toks
      else if c = '\\' then scan .escWord [] rest toks
      else scan .word [c] rest toks := rfl

/-- One step of `scan` from the `word` state. -/
theorem scan_word_cons (acc : Str) (c : Char) (rest : Str) (toks : List Str) :
    scan .word acc (c :: rest) toks =
      if isShWs c then scan .ready [] rest (toks ++ [acc])
      else if c = '\'' then scan .single acc rest toks
      else if c = '"' then scan .double acc rest toks
      else if c = '\\' then scan .escWord acc rest toks
      else scan .word (acc ++ [c]) rest toks := rfl

/-- One step of `scan` from the `single` state. -/
theorem scan_single_cons (acc : Str) (c : Char) (rest : Str) (toks : List Str) :
    scan .single acc (c :: rest) toks =
      if c = '\'' then scan .word acc rest toks
      else scan .single (acc ++ [c]) rest toks := rfl

/-- One step of `scan` from the `double` state. -/
theorem scan_double_cons (acc : Str) (c : Char) (rest : Str) (toks : List Str) :
    scan .double acc (c :: rest) toks =
      if c = '"' then scan .word acc rest toks
      else if c = '\\' then scan .escDouble acc rest toks
      else scan .double (acc ++ [c]) rest toks := rfl

/-- One step of `scan` from the `escWord` state. -/
theorem scan_escWord_cons (acc : Str) (c : Char) (rest : Str) (toks : List Str) :
    scan .escWord acc (c :: rest) toks = scan .word (acc ++ [c]) rest toks := rfl

/-- One step of `scan` from the `escDouble` state. -/
theorem scan_escDouble_cons (acc : Str) (c : Char) (rest : Str) (toks : List Str) :
    scan .escDouble acc (c :: rest) toks =
      if c = '"' ∨ c = '\\' then scan .double (acc ++ [c]) rest toks
      else scan .double (acc ++ ['\\', c]) rest toks := rfl

/-- One step of `splitFirst` on a nonempty input. -/
theorem splitFirst_cons (pat : Str) (c : Char) (rest : Str) :
    splitFirst pat (c :: rest) =
      if isPre pat (c :: rest) then some ([], (c :: rest).drop pat.length)
      else
        match splitFirst pat rest with
        | some (a, b) => some (c :: a, b)
        | none => none := rfl

/-- One step of `splitChar` on a nonempty input. -/
theorem splitChar_cons (c d : Char) (rest : Str) :
    splitChar c (d :: rest) =
      if d = c then [] :: splitChar c rest
      else
        match splitChar c rest with
        | [] => [[d]]
        | t :: ts => (d :: t) :: ts := rfl

/-- Characters surviving `dropWhile` come from the original list. -/
theorem mem_of_mem_dropWhile {p : Char → Bool} :
    ∀ {s : Str} {c : Char}, c ∈ s.dropWhile p → c ∈ s := by
  intro s
  induction s with
  | nil => intro c h; exact absurd h (by simp)
  | cons d rest ih =>
    intro c h
    by_cases hd : p d
    · rw [List.dropWhile_cons_of_pos hd] at h
      exact List.mem_cons_of_mem _ (ih h)
    · rw [List.dropWhile_cons_of_neg hd] at h
      exact h

/-- Characters of the stripped text come from the original text. -/
theorem pyStrip_subset {s : Str} {c : Char} (h : c ∈ pyStrip s) : c ∈ s := by
  unfold pyStrip at h
  rw [List.mem_reverse] at h
  have h1 := mem_of_mem_dropWhile h
  rw [List.mem_reverse] at h1
  exact mem_of_mem_dropWhile h1

/-- A successful prefix test recovers the list. -/
theorem isPre_drop : ∀ (p s : Str), isPre p s = true → p ++ s.drop p.length = s := by
  intro p
  induction p with
  | nil => intro s _; simp
  | cons c p ih =>
    intro s h
    cases s with
    | nil => exact absurd h (by simp [isPre])
    | cons d s' =>
      simp only [isPre, Bool.and_eq_true, decide_eq_true_eq] at h
      obtain ⟨rfl, h2⟩ := h
      simpa using ih s' h2

/-- A successful `splitFirst` decomposes the input around the pattern. -/
theorem splitFirst_eq {pat : Str} :
    ∀ {s a b : Str}, splitFirst pat s = some (a, b) → s = a ++ pat ++ b := by
  intro s
  induction s with
  | nil => intro a b h; exact absurd h (by simp [splitFirst])
  | cons c rest ih =>
    intro a b h
    rw [splitFirst_cons] at h
    by_cases hpre : isPre pat (c :: rest)
    · rw [if_pos hpre] at h
      injection h with h
      injection h with h1 h2
      subst h1; subst h2
      simpa using (isPre_drop pat (c :: rest) hpre).symm
    · rw [if_neg hpre] at h
      cases hsf : splitFirst pat rest with
      | none => rw [hsf] at h; cases h
      | some pr =>
        obtain ⟨a', b'⟩ := pr
        rw [hsf] at h
        injection h with h
        injection h with h1 h2
        subst h1; subst h2
        simp [ih hsf]

/-- No chunk of `splitChar` is missing: the output is never empty. -/
theorem splitChar_ne_nil (c : Char) : ∀ s : Str, splitChar c s ≠ [] := by
  intro s
  induction s with
  | nil => simp [splitChar]
  | cons d rest ih =>
    rw [splitChar_cons]
    by_cases hd : d = c
    · simp [hd]
    · rw [if_neg hd]
      cases h : splitChar c rest with
      | nil => exact absurd h ih
      | cons t ts => simp

/-- Characters of every chunk of `splitChar` come from the input. -/
theorem splitChar_mem {c : Char} :
    ∀ {s x : Str}, x ∈ splitChar c s → ∀ d ∈ x, d ∈ s := by
  intro s
  induction s with
  | nil =>
    intro x hx d hd
    simp [splitChar] at hx
    subst hx
    cases hd
  | cons e rest ih =>
    intro x hx d hd
    rw [splitChar_cons] at hx
    by_cases he : e = c
    · rw [if_pos he] at hx
      rcases List.mem_cons.mp hx with rfl | hx
      · cases hd
      · exact List.mem_cons_of_mem _ (ih hx d hd)
    · rw [if_neg he] at hx
      cases h : splitChar c rest with
      | nil => exact absurd h (splitChar_ne_nil c rest)
      | cons t ts =>
        rw [h] at hx
        rcases List.mem_cons.mp hx with rfl | hx
        · rcases List.mem_cons.mp hd with rfl | hd
          · exact List.mem_cons_self ..
          · exact List.mem_cons_of_mem _ (ih (h ▸ List.mem_cons_self ..) d hd)
        · exact List.mem_cons_of_mem _ (ih (h ▸ List.mem_cons_of_mem _ hx) d hd)

/-- A line without quote and escape characters always tokenizes: only the
`ready` and `word` states are ever reached, and neither fails. -/
theorem scan_ok_of_clean :
    ∀ (s : Str) (st : SplitState) (acc : Str) (toks : List Str),
      (st = .ready ∨ st = .word) →
      (∀ c ∈ s, c ≠ '\'' ∧ c ≠ '"' ∧ c ≠ '\\') →
      ∃ r, scan st acc s toks = .ok r := by
  intro s
  induction s with
  | nil =>
    rintro st acc toks (rfl | rfl) _
    · exact ⟨toks, rfl⟩
    · exact ⟨toks ++ [acc], rfl⟩
  | cons c rest ih =>
    rintro st acc toks (rfl | rfl) hclean <;>
      obtain ⟨h1, h2, h3⟩ := hclean c (List.mem_cons_self ..) <;>
      by_cases hws : isShWs c
    · rw [scan_ready_cons, if_pos hws]
      exact ih .ready [] toks (Or.inl rfl) (fun d hd => hclean d (List.mem_cons_of_mem _ hd))
    · rw [scan_ready_cons, if_neg hws, if_neg h1, if_neg h2, if_neg h3]
      exact ih .word [c] toks (Or.inr rfl) (fun d hd => hclean d (List.mem_cons_of_mem _ hd))
    · rw [scan_word_cons, if_pos hws]
      exact ih .ready [] (toks ++ [acc]) (Or.inl rfl)
        (fun d hd => hclean d (List.mem_cons_of_mem _ hd))
    · rw [scan_word_cons, if_neg hws, if_neg h1, if_neg h2, if_neg h3]
      exact ih .word (acc ++ [c]) toks (Or.inr rfl)
        (fun d hd => hclean d (List.mem_cons_of_mem _ hd))

/-- A segment without quote and escape characters always parses. -/
theorem parseSeg_ok_of_clean (s : Str)
    (h : ∀ c ∈ s, c ≠ '\'' ∧ c ≠ '"' ∧ c ≠ '\\') :
    ∃ stg, parseSeg s = .ok stg := by
  rcases hgg : splitFirst (str ">>") s with _ | ⟨a, b⟩
  · rcases hg : splitFirst (str ">") s with _ | ⟨a, b⟩
    · obtain ⟨r, hr⟩ := scan_ok_of_clean s .ready [] [] (Or.inl rfl) h
      exact ⟨⟨r, none, false⟩, by simp [parseSeg, hgg, hg, shlexSplit, hr, Except.map]⟩
    · have hsub : ∀ c ∈ a, c ≠ '\'' ∧ c ≠ '"' ∧ c ≠ '\\' := by
        intro c hc
        have := splitFirst_eq hg
        exact h c (this ▸ List.mem_append_left _ (List.mem_append_left _ hc))
      obtain ⟨r, hr⟩ := scan_ok_of_clean a .ready [] [] (Or.inl rfl) hsub
      exact ⟨⟨r, firstOutToken b, false⟩,
        by simp [parseSeg, hgg, hg, shlexSplit, hr, Except.map]⟩
  · have hsub : ∀ c ∈ a, c ≠ '\'' ∧ c ≠ '"' ∧ c ≠ '\\' := by
      intro c hc
      have := splitFirst_eq hgg
      exact h c (this ▸ List.mem_append_left _ (List.mem_append_left _ hc))
    obtain ⟨r, hr⟩ := scan_ok_of_clean a .ready [] [] (Or.inl rfl) hsub
    exact ⟨⟨r, firstOutToken b, true⟩,
      by simp [parseSeg, hgg, shlexSplit, hr, Except.map]⟩

/-- Claim C2, counterexample to the claim as stated: the line `a||b` has
two non-empty pipe-separated segments, yet the parser returns a pipeline
of three stages — the empty segment is not dropped but becomes a stage
with an empty argument vector. -/
theorem c2_cex :
    parse_command_line (str "a||b") =
      .ok [⟨[str "a"], none, false⟩, ⟨[], none, false⟩, ⟨[str "b"], none, false⟩] ∧
    (List.filter (fun s => !(pyStrip s).isEmpty) (splitChar '|' (str "a||b"))).length = 2 :=
  ⟨rfl, rfl⟩

/-- Claim C2 (amended): for every successfully parsed line, the stage
count equals the number of all pipe-separated segments of the line,
empty segments included: empty segments are kept by the parser as stages
with an empty argument vector (they are skipped later by the driver, not
dropped by the parser). -/
theorem c2_amended (line : Str) (P : List Stage)
    (h : parse_command_line line = .ok P) :
    P.length = (splitChar '|' line).length := by
  have := mapExcept_ok_length h
  simpa using this

/-- Claim C2, witness: the amended theorem evaluated on `a||b`: three
stages from three segments. -/
theorem c2_witness :
    ([⟨[str "a"], none, false⟩, ⟨[], none, false⟩, ⟨[str "b"], none, false⟩] :
      List Stage).length = (splitChar '|' (str "a||b")).length :=
  c2_amended (str "a||b") _ rfl

/-- Claim C3, counterexample to the claim as stated: on the one-character
line consisting of a double quote — an unbalanced quotation — the parser
does not return a best-effort token list: the tokenizer raises
`ValueError: No closing quotation`, which propagates out of
`parse_command_line` (the read loop catches it and prints a shell
error). -/
theorem c3_cex : parse_command_line ['"'] = .error "No closing quotation" := rfl

/-- Claim C3 (amended): the parser never fails on lines free of quote and
escape characters; a line with unbalanced quoting or a trailing escape
character makes the tokenizer raise (`No closing quotation` /
`No escaped character`), so parse is only best-effort-total on the
quote-free fragment. -/
theorem c3_amended (line : Str)
    (h : ∀ c ∈ line, c ≠ '\'' ∧ c ≠ '"' ∧ c ≠ '\\') :
    ∃ P, parse_command_line line = .ok P := by
  unfold parse_command_line
  apply mapExcept_ok_of_forall
  intro x hx
  rcases List.mem_map.mp hx with ⟨seg, hseg, rfl⟩
  apply parseSeg_ok_of_clean
  intro c hc
  exact h c (splitChar_mem hseg c (pyStrip_subset hc))

/-- Claim C3, witness: the amended theorem evaluated on the quote-free
line `a|b > c`. -/
theorem c3_witness : ∃ P, parse_command_line (str "a|b > c") = .ok P :=
  c3_amended (str "a|b > c") (by decide)

/-!
Claim C7 development: re-parsing the reconstruction.  First the
round-trip of the quoting scheme through the tokenizer.
-/

/-- One step of `escQ`. -/
theorem escQ_cons (c : Char) (cs : Str) :
    escQ (c :: cs) = if c = '\'' then str "'\"'\"'" ++ escQ cs else c :: escQ cs := rfl

/-- Unfolding of `interc` on two or more chunks. -/
theorem interc_cons2 (sep x y : Str) (r : List Str) :
    interc sep (x :: y :: r) = x ++ sep ++ interc sep (y :: r) := rfl

/-- Scanning the quote-encoded form of a token from inside single quotes
consumes it verbatim into the accumulator and ends at the closing
quote. -/
theorem scan_single_escQ :
    ∀ (t acc rest : Str) (toks : List Str),
      scan .single acc (escQ t ++ '\'' :: rest) toks = scan .word (acc ++ t) rest toks := by
  intro t
  induction t with
  | nil =>
    intro acc rest toks
    rw [show escQ [] = [] from rfl, List.nil_append, scan_single_cons, if_pos rfl,
        List.append_nil]
  | cons c cs ih =>
    intro acc rest toks
    by_cases hc : c = '\''
    · subst hc
      rw [escQ_cons, if_pos rfl,
          show str "'\"'\"'" = ['\'', '"', '\'', '"', '\''] from rfl]
      simp only [List.cons_append, List.append_assoc, List.nil_append]
      rw [scan_single_cons, if_pos rfl]
      rw [scan_word_cons, if_neg (by decide), if_neg (by decide), if_pos rfl]
      rw [scan_double_cons, if_neg (by decide), if_neg (by decide)]
      rw [scan_double_cons, if_pos rfl]
      rw [scan_word_cons, if_neg (by decide), if_pos rfl]
      rw [ih]
      simp
    · rw [escQ_cons, if_neg hc, List.cons_append, scan_single_cons, if_neg hc, ih]
      simp

/-- Scanning a quoted token from the `ready` state consumes it and ends
in the `word` state with exactly the token as accumulator. -/
theorem scan_shQuote (t rest : Str) (toks : List Str) :
    scan .ready [] (shQuote t ++ rest) toks = scan .word t rest toks := by
  rw [show shQuote t ++ rest = '\'' :: (escQ t ++ '\'' :: rest) by
        simp [shQuote]]
  rw [scan_ready_cons, if_neg (by decide), if_pos rfl]
  rw [scan_single_escQ, List.nil_append]

/-- Scanning the space-joined quoted tokens followed by a space emits
exactly the tokens. -/
theorem scan_tokens_sp :
    ∀ (ts : List Str) (rest : Str) (toks : List Str),
      scan .ready [] (interc (str " ") (List.map shQuote ts) ++ ' ' :: rest) toks =
        scan .ready [] rest (toks ++ ts) := by
  intro ts
  induction ts with
  | nil =>
    intro rest toks
    rw [show interc (str " ") (List.map shQuote []) = [] from rfl, List.nil_append,
        scan_ready_cons, if_pos (by decide), List.append_nil]
  | cons t ts ih =>
    intro rest toks
    cases ts with
    | nil =>
      rw [show interc (str " ") (List.map shQuote [t]) = shQuote t from rfl]
      rw [scan_shQuote, scan_word_cons, if_pos (by decide)]
    | cons t2 ts' =>
      rw [show interc (str " ") (List.map shQuote (t :: t2 :: ts')) = shQuote t ++ str " " ++ interc (str " ") (List.map shQuote (t2 :: ts')) from rfl]
      rw [show (shQuote t ++ str " " ++ interc (str " ") (List.map shQuote (t2 :: ts'))) ++ ' ' :: rest = shQuote t ++ ' ' :: (interc (str " ") (List.map shQuote (t2 :: ts')) ++ ' ' :: rest) by simp [str]]
      rw [scan_shQuote, scan_word_cons, if_pos (by decide)]
      rw [ih]
      simp

/-- Scanning the space-joined quoted tokens emits exactly the tokens. -/
theorem scan_tokens :
    ∀ (ts : List Str) (toks : List Str),
      scan .ready [] (interc (str " ") (List.map shQuote ts)) toks = .ok (toks ++ ts) := by
  intro ts
  induction ts with
  | nil =>
    intro toks
    rw [show interc (str " ") (List.map shQuote []) = [] from rfl]
    simp [scan]
  | cons t ts ih =>
    intro toks
    cases ts with
    | nil =>
      rw [show interc (str " ") (List.map shQuote [t]) = shQuote t from rfl,
          ← List.append_nil (shQuote t), scan_shQuote]
      simp [scan]
    | cons t2 ts' =>
      rw [show interc (str " ") (List.map shQuote (t :: t2 :: ts')) = shQuote t ++ ' ' :: interc (str " ") (List.map shQuote (t2 :: ts')) by simp [str, interc_cons2, show List.map shQuote (t :: t2 :: ts') = shQuote t :: List.map shQuote (t2 :: ts') from rfl]]
      rw [scan_shQuote, scan_word_cons, if_pos (by decide)]
      rw [ih]
      simp

/-- Tokenizing the reconstruction of an argument vector returns it. -/
theorem shlexSplit_tokens (ts : List Str) :
    shlexSplit (interc (str " ") (List.map shQuote ts)) = .ok ts := by
  unfold shlexSplit
  simpa using scan_tokens ts []

/-- Tokenizing the reconstruction of an argument vector followed by a
trailing space returns it. -/
theorem shlexSplit_tokens_sp (ts : List Str) :
    shlexSplit (interc (str " ") (List.map shQuote ts) ++ [' ']) = .ok ts := by
  unfold shlexSplit
  have h := scan_tokens_sp ts [] []
  simpa using h

/-!
Occurrence machinery for the two-character pattern of the append
operator.
-/

/-- The prefix test for the append operator, spelled out. -/
theorem isPre_gg (c : Char) (s : Str) :
    isPre (str ">>") (c :: s) = true ↔ (c = '>' ∧ s.head? = some '>') := by
  cases s with
  | nil =>
    rw [show isPre (str ">>") [c] = (('>' = c) && isPre ['>'] []) from rfl]
    simp [isPre]
  | cons d s' =>
    rw [show isPre (str ">>") (c :: d :: s') = (('>' = c) && (('>' = d) && true)) from rfl]
    simp only [Bool.and_true, Bool.and_eq_true, decide_eq_true_eq, List.head?_cons,
               Option.some.injEq]
    constructor
    · rintro ⟨h1, h2⟩; exact ⟨h1.symm, h2.symm⟩
    · rintro ⟨h1, h2⟩; exact ⟨h1.symm, h2.symm⟩

/-- The empty text contains no append operator. -/
theorem hasGG_nil : ¬ hasGG [] := by decide

/-- An occurrence starting at the head. -/
theorem hasGG_head (c : Char) (s : Str) (h1 : c = '>') (h2 : s.head? = some '>') :
    hasGG (c :: s) := by
  unfold hasGG
  rw [splitFirst_cons, if_pos ((isPre_gg c s).mpr ⟨h1, h2⟩)]
  rfl

/-- An occurrence in the tail is an occurrence. -/
theorem hasGG_tail (c : Char) (s : Str) (h : hasGG s) : hasGG (c :: s) := by
  unfold hasGG at h ⊢
  rw [splitFirst_cons]
  by_cases hpre : isPre (str ">>") (c :: s) = true
  · rw [if_pos hpre]; rfl
  · rw [if_neg hpre]
    cases hsf : splitFirst (str ">>") s with
    | none => rw [hsf] at h; simp at h
    | some pr => obtain ⟨a, b⟩ := pr; simp

/-- Case analysis of an occurrence in a nonempty text. -/
theorem hasGG_elim (c : Char) (s : Str) (h : hasGG (c :: s)) :
    (c = '>' ∧ s.head? = some '>') ∨ hasGG s := by
  unfold hasGG at h
  rw [splitFirst_cons] at h
  by_cases hpre : isPre (str ">>") (c :: s) = true
  · exact Or.inl ((isPre_gg c s).mp hpre)
  · rw [if_neg hpre] at h
    cases hsf : splitFirst (str ">>") s with
    | none => rw [hsf] at h; simp at h
    | some pr => exact Or.inr (by unfold hasGG; rw [hsf]; rfl)

/-- An occurrence in a concatenation lies in one part or spans the
boundary. -/
theorem hasGG_append_elim (a b : Str) (h : hasGG (a ++ b)) :
    hasGG a ∨ hasGG b ∨ (a.getLast? = some '>' ∧ b.head? = some '>') := by
  induction a with
  | nil => exact Or.inr (Or.inl (by simpa using h))
  | cons c a' ih =>
    rw [List.cons_append] at h
    rcases hasGG_elim c (a' ++ b) h with ⟨rfl, hh⟩ | h'
    · cases a' with
      | nil => exact Or.inr (Or.inr ⟨by simp, by simpa using hh⟩)
      | cons d a'' =>
        have hd : d = '>' := by simpa using hh
        exact Or.inl (hasGG_head _ _ rfl (by simp [hd]))
    · rcases ih h' with h1 | h1 | ⟨h1, h2⟩
      · exact Or.inl (hasGG_tail c a' h1)
      · exact Or.inr (Or.inl h1)
      · refine Or.inr (Or.inr ⟨?_, h2⟩)
        cases a' with
        | nil => simp at h1
        | cons d a'' => rw [List.getLast?_cons_cons]; exact h1

/-- Occurrence as an explicit decomposition. -/
theorem hasGG_iff_exists (s : Str) : hasGG s ↔ ∃ u v, s = u ++ '>' :: '>' :: v := by
  constructor
  · intro h
    unfold hasGG at h
    rw [Option.isSome_iff_exists] at h
    obtain ⟨pr, hpr⟩ := h
    obtain ⟨a, b⟩ := pr
    exact ⟨a, b, by simpa [show str ">>" = ['>', '>'] from rfl] using splitFirst_eq hpr⟩
  · rintro ⟨u, v, rfl⟩
    induction u with
    | nil => exact hasGG_head '>' ('>' :: v) rfl rfl
    | cons c u' ihu => exact hasGG_tail _ _ ihu

/-- An occurrence inside a factor is an occurrence in the product. -/
theorem hasGG_of_decomp (x t y : Str) (h : hasGG t) : hasGG (x ++ t ++ y) := by
  obtain ⟨u, v, rfl⟩ := (hasGG_iff_exists t).mp h
  exact (hasGG_iff_exists _).mpr ⟨x ++ u, v ++ y, by simp⟩

/-- Without an occurrence, the append-operator split returns nothing. -/
theorem splitFirst_gg_none (s : Str) (h : ¬ hasGG s) : splitFirst (str ">>") s = none := by
  unfold hasGG at h
  cases hs : splitFirst (str ">>") s with
  | none => rfl
  | some pr => rw [hs] at h; simp at h

/-- A character absent from the text gives an empty single-character
split, and conversely. -/
theorem sf_single_none_iff (c : Char) : ∀ s : Str, splitFirst [c] s = none ↔ c ∉ s := by
  intro s
  induction s with
  | nil => simp [splitFirst]
  | cons d rest ih =>
    rw [splitFirst_cons]
    by_cases hcd : c = d
    · subst hcd
      rw [if_pos (by simp [isPre])]
      simp
    · rw [if_neg (by simp [isPre, hcd])]
      cases hsf : splitFirst [c] rest with
      | none =>
        have := ih.mp hsf
        simp [hcd, this]
      | some pr =>
        obtain ⟨a, b⟩ := pr
        have : c ∈ rest := by
          by_contra hmem
          rw [ih.mpr hmem] at hsf
          cases hsf
        simp [this]

/-- Splitting at the first occurrence of a single character, computed on
a decomposition whose left part avoids the character. -/
theorem sf_single_some : ∀ (x : Str) (c : Char) (y : Str), c ∉ x →
    splitFirst [c] (x ++ c :: y) = some (x, y) := by
  intro x
  induction x with
  | nil =>
    intro c y _
    rw [List.nil_append, splitFirst_cons, if_pos (by simp [isPre])]
    simp
  | cons d x' ih =>
    intro c y hc
    rw [List.cons_append, splitFirst_cons]
    have hcd : ¬ c = d := fun h => hc (by simp [h])
    rw [if_neg (by simp [isPre, hcd])]
    rw [ih c y (fun h => hc (List.mem_cons_of_mem _ h))]

/-- The text before the first occurrence of a single character avoids the
character. -/
theorem sf_single_before (c : Char) :
    ∀ {s a b : Str}, splitFirst [c] s = some (a, b) → c ∉ a := by
  intro s
  induction s with
  | nil => intro a b h; cases h
  | cons d rest ih =>
    intro a b h
    rw [splitFirst_cons] at h
    by_cases hpre : isPre [c] (d :: rest) = true
    · rw [if_pos hpre] at h
      injection h with h
      injection h with h1 h2
      subst h1
      simp
    · rw [if_neg hpre] at h
      cases hsf : splitFirst [c] rest with
      | none => rw [hsf] at h; cases h
      | some pr =>
        obtain ⟨a', b'⟩ := pr
        rw [hsf] at h
        injection h with h
        injection h with h1 h2
        subst h1
        have hcd : ¬ c = d := by simpa [isPre] using hpre
        simp only [List.mem_cons]
        rintro (rfl | hmem)
        · exact hcd rfl
        · exact ih hsf hmem

/-- Splitting at the first append operator, computed on a decomposition
whose left part (extended by one `>`) contains no operator. -/
theorem sf_gg_some : ∀ (x y : Str), ¬ hasGG (x ++ ['>']) →
    splitFirst (str ">>") (x ++ '>' :: '>' :: y) = some (x, y) := by
  intro x
  induction x with
  | nil =>
    intro y _
    rw [List.nil_append, splitFirst_cons,
        if_pos ((isPre_gg '>' ('>' :: y)).mpr ⟨rfl, rfl⟩)]
    simp [show str ">>" = ['>', '>'] from rfl]
  | cons c x' ih =>
    intro y hgg
    rw [List.cons_append, splitFirst_cons]
    have hne : ¬ isPre (str ">>") (c :: (x' ++ '>' :: '>' :: y)) = true := by
      intro hp
      obtain ⟨rfl, hh⟩ := (isPre_gg _ _).mp hp
      apply hgg
      cases x' with
      | nil => exact hasGG_head '>' ['>'] rfl rfl
      | cons d x'' =>
        have hd : d = '>' := by simpa using hh
        exact hasGG_head _ _ rfl (by simp [hd])
    rw [if_neg hne]
    rw [ih y (fun h => hgg (hasGG_tail c _ h))]

/-!
Character invariants of the tokenizer, and the supporting lemmas on
`pySplit` and `pyStrip`.
-/

/-- Every character of every token emitted by a successful `scan`
satisfies any predicate satisfied by the input, the accumulator, the
already-emitted tokens, and the backslash character (which the
double-quote escape can re-emit). -/
theorem scan_chars (P : Char → Prop) (hP : P '\\') :
    ∀ (s : Str) (st : SplitState) (acc : Str) (toks : List Str) (r : List Str),
      (∀ c ∈ s, P c) → (∀ t ∈ toks, ∀ c ∈ t, P c) → (∀ c ∈ acc, P c) →
      scan st acc s toks = .ok r → ∀ t ∈ r, ∀ c ∈ t, P c := by
  intro s
  induction s with
  | nil =>
    intro st acc toks r _ htoks hacc hscan t ht c hc
    cases st with
    | ready =>
      injection hscan with h
      subst h
      exact htoks t ht c hc
    | word =>
      injection hscan with h
      subst h
      rcases List.mem_append.mp ht with ht' | ht'
      · exact htoks t ht' c hc
      · simp at ht'
        subst ht'
        exact hacc c hc
    | single => cases hscan
    | double => cases hscan
    | escWord => cases hscan
    | escDouble => cases hscan
  | cons d s' ih =>
    intro st acc toks r hs htoks hacc hscan t ht c hc
    have hd : P d := hs d (List.mem_cons_self ..)
    have hs' : ∀ e ∈ s', P e := fun e he => hs e (List.mem_cons_of_mem _ he)
    have haccd : ∀ e ∈ acc ++ [d], P e := by
      intro e he
      rcases List.mem_append.mp he with he' | he'
      · exact hacc e he'
      · simp at he'; subst he'; exact hd
    cases st with
    | ready =>
      rw [scan_ready_cons] at hscan
      by_cases hws : isShWs d
      · rw [if_pos hws] at hscan
        exact ih .ready [] toks r hs' htoks (by simp) hscan t ht c hc
      · rw [if_neg hws] at hscan
        by_cases h1 : d = '\''
        · rw [if_pos h1] at hscan
          exact ih .single [] toks r hs' htoks (by simp) hscan t ht c hc
        · rw [if_neg h1] at hscan
          by_cases h2 : d = '"'
          · rw [if_pos h2] at hscan
            exact ih .double [] toks r hs' htoks (by simp) hscan t ht c hc
          · rw [if_neg h2] at hscan
            by_cases h3 : d = '\\'
            · rw [if_pos h3] at hscan
              exact ih .escWord [] toks r hs' htoks (by simp) hscan t ht c hc
            · rw [if_neg h3] at hscan
              refine ih .word [d] toks r hs' htoks ?_ hscan t ht c hc
              intro e he; simp at he; subst he; exact hd
    | word =>
      rw [scan_word_cons] at hscan
      by_cases hws : isShWs d
      · rw [if_pos hws] at hscan
        refine ih .ready [] (toks ++ [acc]) r hs' ?_ (by simp) hscan t ht c hc
        intro t' ht' e he
        rcases List.mem_append.mp ht' with ht'' | ht''
        · exact htoks t' ht'' e he
        · simp at ht''; subst ht''; exact hacc e he
      · rw [if_neg hws] at hscan
        by_cases h1 : d = '\''
        · rw [if_pos h1] at hscan
          exact ih .single acc toks r hs' htoks hacc hscan t ht c hc
        · rw [if_neg h1] at hscan
          by_cases h2 : d = '"'
          · rw [if_pos h2] at hscan
            exact ih .double acc toks r hs' htoks hacc hscan t ht c hc
          · rw [if_neg h2] at hscan
            by_cases h3 : d = '\\'
            · rw [if_pos h3] at hscan
              exact ih .escWord acc toks r hs' htoks hacc hscan t ht c hc
            · rw [if_neg h3] at hscan
              exact ih .word (acc ++ [d]) toks r hs' htoks haccd hscan t ht c hc
    | single =>
      rw [scan_single_cons] at hscan
      by_cases h1 : d = '\''
      · rw [if_pos h1] at hscan
        exact ih .word acc toks r hs' htoks hacc hscan t ht c hc
      · rw [if_neg h1] at hscan
        exact ih .single (acc ++ [d]) toks r hs' htoks haccd hscan t ht c hc
    | double =>
      rw [scan_double_cons] at hscan
      by_cases h1 : d = '"'
      · rw [if_pos h1] at hscan
        exact ih .word acc toks r hs' htoks hacc hscan t ht c hc
      · rw [if_neg h1] at hscan
        by_cases h2 : d = '\\'
        · rw [if_pos h2] at hscan
          exact ih .escDouble acc toks r hs' htoks hacc hscan t ht c hc
        · rw [if_neg h2] at hscan
          exact ih .double (acc ++ [d]) toks r hs' htoks haccd hscan t ht c hc
    | escWord =>
      rw [scan_escWord_cons] at hscan
      exact ih .word (acc ++ [d]) toks r hs' htoks haccd hscan t ht c hc
    | escDouble =>
      rw [scan_escDouble_cons] at hscan
      by_cases h1 : d = '"' ∨ d = '\\'
      · rw [if_pos h1] at hscan
        exact ih .double (acc ++ [d]) toks r hs' htoks haccd hscan t ht c hc
      · rw [if_neg h1] at hscan
        refine ih .double (acc ++ ['\\', d]) toks r hs' htoks ?_ hscan t ht c hc
        intro e he
        rcases List.mem_append.mp he with he' | he'
        · exact hacc e he'
        · simp at he'
          rcases he' with rfl | rfl
          · exact hP
          · exact hd

/-- `pySplit` on a one-character input. -/
theorem pySplit_one (c : Char) :
    pySplit [c] = if isPyWs c then [] else [[c]] := by
  by_cases h : isPyWs c
  · rw [if_pos h]; show (if isPyWs c then pySplit [] else _) = []; rw [if_pos h]; rfl
  · rw [if_neg h]; show (if isPyWs c then pySplit [] else _) = [[c]]; rw [if_neg h]

/-- `pySplit` on an input with at least two characters. -/
theorem pySplit_two (c d : Char) (rest' : Str) :
    pySplit (c :: d :: rest') =
      if isPyWs c then pySplit (d :: rest')
      else if isPyWs d then [c] :: pySplit (d :: rest')
      else
        match pySplit (d :: rest') with
        | [] => [[c]]
        | t :: ts => (c :: t) :: ts := rfl

/-- Tokens of `pySplit` are nonempty whitespace-free contiguous pieces of
the input, and the text before the first token is all whitespace. -/
theorem pySplit_parts : ∀ (s : Str),
    (∀ t ∈ pySplit s, t ≠ [] ∧ (∀ c ∈ t, isPyWs c = false) ∧ ∃ x y, s = x ++ t ++ y) ∧
    (∀ t ts, pySplit s = t :: ts → ∃ x y, s = x ++ t ++ y ∧ ∀ c ∈ x, isPyWs c = true) := by
  intro s
  induction s with
  | nil =>
    constructor
    · intro t ht; simp [pySplit] at ht
    · intro t ts h; simp [pySplit] at h
  | cons c rest ih =>
    cases rest with
    | nil =>
      by_cases hws : isPyWs c
      · constructor
        · intro t ht
          rw [pySplit_one, if_pos hws] at ht
          cases ht
        · intro t ts h
          rw [pySplit_one, if_pos hws] at h
          cases h
      · have hwsf : isPyWs c = false := by simpa using hws
        constructor
        · intro t ht
          rw [pySplit_one, if_neg hws] at ht
          simp at ht
          subst ht
          exact ⟨by simp, by simpa using hwsf, [], [], by simp⟩
        · intro t ts h
          rw [pySplit_one, if_neg hws] at h
          injection h with h1 h2
          subst h1
          exact ⟨[], [], by simp, by simp⟩
    | cons d rest' =>
      by_cases hws : isPyWs c
      · constructor
        · intro t ht
          rw [pySplit_two, if_pos hws] at ht
          obtain ⟨h1, h2, x, y, hxy⟩ := ih.1 t ht
          exact ⟨h1, h2, c :: x, y, by simp [hxy]⟩
        · intro t ts h
          rw [pySplit_two, if_pos hws] at h
          obtain ⟨x, y, hxy, hx⟩ := ih.2 t ts h
          refine ⟨c :: x, y, by simp [hxy], ?_⟩
          intro e he
          rcases List.mem_cons.mp he with rfl | he'
          · exact hws
          · exact hx e he'
      · have hwsf : isPyWs c = false := by simpa using hws
        by_cases hd : isPyWs d
        · constructor
          · intro t ht
            rw [pySplit_two, if_neg hws, if_pos hd] at ht
            rcases List.mem_cons.mp ht with rfl | ht'
            · exact ⟨by simp, by simpa using hwsf, [], d :: rest', by simp⟩
            · obtain ⟨h1, h2, x, y, hxy⟩ := ih.1 t ht'
              exact ⟨h1, h2, c :: x, y, by simp [hxy]⟩
          · intro t ts h
            rw [pySplit_two, if_neg hws, if_pos hd] at h
            injection h with h1 h2
            subst h1
            exact ⟨[], d :: rest', by simp, by simp⟩
        · cases hsp : pySplit (d :: rest') with
          | nil =>
            constructor
            · intro t ht
              rw [pySplit_two, if_neg hws, if_neg hd, hsp] at ht
              simp at ht
              subst ht
              exact ⟨by simp, by simpa using hwsf, [], d :: rest', by simp⟩
            · intro t ts h
              rw [pySplit_two, if_neg hws, if_neg hd, hsp] at h
              injection h with h1 h2
              subst h1
              exact ⟨[], d :: rest', by simp, by simp⟩
          | cons t0 ts0 =>
            have hx0 : ∃ y, (d :: rest' : Str) = t0 ++ y := by
              obtain ⟨x, y, hxy, hx⟩ := ih.2 t0 ts0 hsp
              cases x with
              | nil => exact ⟨y, by simpa using hxy⟩
              | cons e x' =>
                injection hxy with he _
                subst he
                exact absurd (hx d (List.mem_cons_self ..)) hd
            have ht0 := ih.1 t0 (by rw [hsp]; exact List.mem_cons_self ..)
            constructor
            · intro t ht
              rw [pySplit_two, if_neg hws, if_neg hd, hsp] at ht
              rcases List.mem_cons.mp ht with rfl | ht'
              · obtain ⟨y, hy⟩ := hx0
                refine ⟨by simp, ?_, [], y, by simp [hy]⟩
                intro e he
                rcases List.mem_cons.mp he with rfl | he'
                · exact hwsf
                · exact ht0.2.1 e he'
              · obtain ⟨h1, h2, x, y, hxy⟩ :=
                  ih.1 t (by rw [hsp]; exact List.mem_cons_of_mem _ ht')
                exact ⟨h1, h2, c :: x, y, by simp [hxy]⟩
            · intro t ts h
              rw [pySplit_two, if_neg hws, if_neg hd, hsp] at h
              injection h with h1 h2
              subst h1
              obtain ⟨y, hy⟩ := hx0
              exact ⟨[], y, by simp [hy], by simp⟩

/-- `pySplit` of a nonempty whitespace-free text is the single token. -/
theorem pySplit_all_non_ws : ∀ (p : Str), p ≠ [] → (∀ c ∈ p, isPyWs c = false) →
    pySplit p = [p] := by
  intro p
  induction p with
  | nil => intro h; exact absurd rfl h
  | cons c rest ih =>
    intro _ hnw
    have hc : ¬ isPyWs c = true := by simp [hnw c (List.mem_cons_self ..)]
    cases rest with
    | nil => rw [pySplit_one, if_neg hc]
    | cons d rest' =>
      have hdnw : ¬ isPyWs d = true := by
        simp [hnw d (List.mem_cons_of_mem _ (List.mem_cons_self ..))]
      rw [pySplit_two, if_neg hc, if_neg hdnw]
      rw [ih (by simp) (fun e he => hnw e (List.mem_cons_of_mem _ he))]

/-- Dropping whitespace through an all-whitespace prefix. -/
theorem dropWhile_ws_prefix : ∀ (u x : Str), (∀ c ∈ u, isPyWs c = true) →
    List.dropWhile isPyWs (u ++ x) = List.dropWhile isPyWs x := by
  intro u
  induction u with
  | nil => intro x _; rfl
  | cons c u' ih =>
    intro x hu
    rw [List.cons_append, List.dropWhile_cons_of_pos (hu c (List.mem_cons_self ..))]
    exact ih x (fun e he => hu e (List.mem_cons_of_mem _ he))

/-- Dropping whitespace distributes over an append whose left part does
not vanish. -/
theorem dropWhile_append_ne : ∀ (a b : Str), List.dropWhile isPyWs a ≠ [] →
    List.dropWhile isPyWs (a ++ b) = List.dropWhile isPyWs a ++ b := by
  intro a
  induction a with
  | nil => intro b h; exact absurd rfl h
  | cons c a' ih =>
    intro b h
    by_cases hc : isPyWs c
    · rw [List.cons_append, List.dropWhile_cons_of_pos hc,
          List.dropWhile_cons_of_pos hc]
      rw [List.dropWhile_cons_of_pos hc] at h
      exact ih b h
    · rw [List.cons_append, List.dropWhile_cons_of_neg hc, List.dropWhile_cons_of_neg hc]
      rfl

/-- Stripping ignores all-whitespace padding on both sides. -/
theorem pyStrip_pad (u s v : Str) (hu : ∀ c ∈ u, isPyWs c = true)
    (hv : ∀ c ∈ v, isPyWs c = true) : pyStrip (u ++ s ++ v) = pyStrip s := by
  unfold pyStrip
  rw [show u ++ s ++ v = u ++ (s ++ v) by simp, dropWhile_ws_prefix u (s ++ v) hu]
  by_cases hs : List.dropWhile isPyWs s = []
  · have hsws : ∀ c ∈ s, isPyWs c = true := by
      rw [← List.dropWhile_eq_nil_iff]; exact hs
    have hall : ∀ c ∈ s ++ v, isPyWs c = true := by
      intro c hc
      rcases List.mem_append.mp hc with h | h
      · exact hsws c h
      · exact hv c h
    rw [show List.dropWhile isPyWs (s ++ v) = List.dropWhile isPyWs ((s ++ v) ++ []) by simp,
        dropWhile_ws_prefix (s ++ v) [] hall, hs]
    rfl
  · rw [dropWhile_append_ne s v hs, List.reverse_append,
        dropWhile_ws_prefix v.reverse _ (fun c hc => hv c (List.mem_reverse.mp hc))]

/-- A text whose first and last characters are not whitespace is its own
strip. -/
theorem pyStrip_no_ws_ends (s : Str)
    (hhead : ∀ c, s.head? = some c → isPyWs c = false)
    (hlast : ∀ c, s.getLast? = some c → isPyWs c = false) : pyStrip s = s := by
  cases s with
  | nil => rfl
  | cons c s' =>
    unfold pyStrip
    rw [List.dropWhile_cons_of_neg (by simp [hhead c rfl])]
    cases hrev : (c :: s').reverse with
    | nil => exact absurd hrev (by simp)
    | cons d r' =>
      have hd : (c :: s').getLast? = some d := by
        rw [← List.head?_reverse, hrev]; rfl
      rw [List.dropWhile_cons_of_neg (by simp [hlast d hd]), ← hrev,
          List.reverse_reverse]

/-- The strip of a text is a contiguous piece of it. -/
theorem pyStrip_infix (s : Str) : ∃ x y, s = x ++ pyStrip s ++ y := by
  have h1 := List.takeWhile_append_dropWhile isPyWs s
  have h2 := List.takeWhile_append_dropWhile isPyWs (List.dropWhile isPyWs s).reverse
  have h3 : List.dropWhile isPyWs s =
      pyStrip s ++ (List.takeWhile isPyWs (List.dropWhile isPyWs s).reverse).reverse := by
    have := congrArg List.reverse h2
    rw [List.reverse_append, List.reverse_reverse] at this
    exact this.symm
  exact ⟨List.takeWhile isPyWs s,
         (List.takeWhile isPyWs (List.dropWhile isPyWs s).reverse).reverse,
         by rw [List.append_assoc, ← h3, h1]⟩

/-- Membership from an optional last element. -/
theorem mem_of_getLast?_eq {l : Str} {a : Char} (h : l.getLast? = some a) : a ∈ l := by
  rcases List.mem_getLast?_eq_getLast (by simpa [Option.mem_def] using h) with ⟨hne, rfl⟩
  exact List.getLast_mem hne

/-- The redirection target extracted from a space followed by a
whitespace-free nonempty path is exactly the path. -/
theorem firstOutToken_sp (p : Str) (hne : p ≠ []) (hnw : ∀ c ∈ p, isPyWs c = false) :
    firstOutToken (' ' :: p) = some p := by
  unfold firstOutToken
  have h1 : pyStrip (' ' :: p) = p := by
    have hpad := pyStrip_pad [' '] p [] (by intro c hc; simp at hc; subst hc; rfl) (by simp)
    have hself : pyStrip p = p := by
      apply pyStrip_no_ws_ends
      · intro c hc
        cases p with
        | nil => cases hc
        | cons e p' => injection hc with h; subst h; exact hnw e (List.mem_cons_self ..)
      · intro c hc
        exact hnw c (mem_of_getLast?_eq hc)
    calc pyStrip (' ' :: p) = pyStrip ([' '] ++ p ++ []) := by simp
      _ = pyStrip p := hpad
      _ = p := hself
  rw [h1, pySplit_all_non_ws p hne hnw]

/-!
Character provenance of the reconstruction, and the well-formedness
facts a successful parse guarantees for each stage.
-/

/-- Characters of the quote-encoding come from the token or are quote
characters. -/
theorem escQ_mem : ∀ (t : Str) (c : Char), c ∈ escQ t → c ∈ t ∨ c = '\'' ∨ c = '"' := by
  intro t
  induction t with
  | nil => intro c h; rw [show escQ [] = [] from rfl] at h; cases h
  | cons d t' ih =>
    intro c h
    rw [escQ_cons] at h
    by_cases hd : d = '\''
    · rw [if_pos hd] at h
      rcases List.mem_append.mp h with h' | h'
      · rw [show str "'\"'\"'" = ['\'', '"', '\'', '"', '\''] from rfl] at h'
        simp only [List.mem_cons, List.not_mem_nil, or_false] at h'
        rcases h' with rfl | rfl | rfl | rfl | rfl
        · exact Or.inr (Or.inl rfl)
        · exact Or.inr (Or.inr rfl)
        · exact Or.inr (Or.inl rfl)
        · exact Or.inr (Or.inr rfl)
        · exact Or.inr (Or.inl rfl)
      · rcases ih c h' with h'' | h'' | h''
        · exact Or.inl (List.mem_cons_of_mem _ h'')
        · exact Or.inr (Or.inl h'')
        · exact Or.inr (Or.inr h'')
    · rw [if_neg hd] at h
      rcases List.mem_cons.mp h with rfl | h'
      · exact Or.inl (List.mem_cons_self ..)
      · rcases ih c h' with h'' | h'' | h''
        · exact Or.inl (List.mem_cons_of_mem _ h'')
        · exact Or.inr (Or.inl h'')
        · exact Or.inr (Or.inr h'')

/-- Characters of a quoted token come from the token or are quote
characters. -/
theorem shQuote_mem (t : Str) (c : Char) (h : c ∈ shQuote t) :
    c ∈ t ∨ c = '\'' ∨ c = '"' := by
  unfold shQuote at h
  rcases List.mem_cons.mp h with rfl | h'
  · exact Or.inr (Or.inl rfl)
  · rcases List.mem_append.mp h' with h'' | h''
    · exact escQ_mem t c h''
    · simp at h''
      subst h''
      exact Or.inr (Or.inl rfl)

/-- Characters of a joined list come from the separator or a chunk. -/
theorem interc_mem : ∀ (sep : Str) (xs : List Str) (c : Char),
    c ∈ interc sep xs → c ∈ sep ∨ ∃ x ∈ xs, c ∈ x := by
  intro sep xs
  induction xs with
  | nil => intro c h; rw [show interc sep [] = [] from rfl] at h; cases h
  | cons x xs ih =>
    cases xs with
    | nil =>
      intro c h
      rw [show interc sep [x] = x from rfl] at h
      exact Or.inr ⟨x, by simp, h⟩
    | cons y r =>
      intro c h
      rw [interc_cons2] at h
      rcases List.mem_append.mp h with h' | h'
      · rcases List.mem_append.mp h' with h'' | h''
        · exact Or.inr ⟨x, by simp, h''⟩
        · exact Or.inl h''
      · rcases ih c h' with h'' | ⟨z, hz, hcz⟩
        · exact Or.inl h''
        · exact Or.inr ⟨z, List.mem_cons_of_mem _ hz, hcz⟩

/-- Quote-encoding introduces no append operator. -/
theorem hasGG_escQ : ∀ (t : Str), hasGG (escQ t) → hasGG t := by
  intro t
  induction t with
  | nil => intro h; rw [show escQ [] = [] from rfl] at h; exact absurd h hasGG_nil
  | cons c cs ih =>
    intro h
    rw [escQ_cons] at h
    by_cases hc : c = '\''
    · rw [if_pos hc] at h
      rcases hasGG_append_elim _ _ h with h' | h' | ⟨h1, h2⟩
      · exact absurd h' (by decide)
      · exact hasGG_tail c cs (ih h')
      · exact absurd h1 (by decide)
    · rw [if_neg hc] at h
      rcases hasGG_elim c _ h with ⟨rfl, hh⟩ | h'
      · have hcs : cs.head? = some '>' := by
          cases cs with
          | nil => rw [show escQ [] = [] from rfl] at hh; cases hh
          | cons d cs' =>
            rw [escQ_cons] at hh
            by_cases hd : d = '\''
            · rw [if_pos hd,
                  show str "'\"'\"'" = ['\'', '"', '\'', '"', '\''] from rfl] at hh
              simp at hh
            · rw [if_neg hd] at hh
              simpa using hh
        exact hasGG_head '>' cs rfl hcs
      · exact hasGG_tail c cs (ih h')

/-- Quoting a token introduces no append operator. -/
theorem hasGG_shQuote (t : Str) (h : hasGG (shQuote t)) : hasGG t := by
  unfold shQuote at h
  rcases hasGG_elim _ _ h with ⟨h1, _⟩ | h'
  · exact absurd h1 (by decide)
  · rcases hasGG_append_elim _ _ h' with h'' | h'' | ⟨h1, h2⟩
    · exact hasGG_escQ t h''
    · exact absurd h'' (by decide)
    · exact absurd h2 (by decide)

/-- The quoted, space-joined argument vector contains no append operator
when no token does. -/
theorem hasGG_qtokens : ∀ (ts : List Str), (∀ t ∈ ts, ¬ hasGG t) →
    ¬ hasGG (interc (str " ") (List.map shQuote ts)) := by
  intro ts
  induction ts with
  | nil =>
    intro _ h
    rw [show interc (str " ") (List.map shQuote []) = [] from rfl] at h
    exact hasGG_nil h
  | cons t ts ih =>
    intro hts h
    cases ts with
    | nil =>
      rw [show interc (str " ") (List.map shQuote [t]) = shQuote t from rfl] at h
      exact hts t (by simp) (hasGG_shQuote t h)
    | cons t2 r =>
      rw [show interc (str " ") (List.map shQuote (t :: t2 :: r)) = shQuote t ++ (str " " ++ interc (str " ") (List.map shQuote (t2 :: r))) by rw [show interc (str " ") (List.map shQuote (t :: t2 :: r)) = shQuote t ++ str " " ++ interc (str " ") (List.map shQuote (t2 :: r)) from rfl, List.append_assoc]] at h
      rcases hasGG_append_elim _ _ h with h' | h' | ⟨h1, h2⟩
      · exact hts t (by simp) (hasGG_shQuote t h')
      · rcases hasGG_append_elim _ _ h' with h'' | h'' | ⟨g1, g2⟩
        · exact absurd h'' (by decide)
        · exact ih (fun z hz => hts z (List.mem_cons_of_mem _ hz)) h''
        · exact absurd g1 (by decide)
      · rw [show ((str " " ++ interc (str " ") (List.map shQuote (t2 :: r))) : Str).head? = some ' ' from rfl] at h2
        exact absurd h2 (by decide)

/-- The quoted, space-joined argument vector contains no `>` when no
token does. -/
theorem gt_not_mem_qtokens (ts : List Str) (h : ∀ t ∈ ts, '>' ∉ t) :
    '>' ∉ interc (str " ") (List.map shQuote ts) := by
  intro hmem
  rcases interc_mem _ _ _ hmem with h' | ⟨x, hx, hcx⟩
  · exact absurd h' (by decide)
  · rcases List.mem_map.mp hx with ⟨t, ht, rfl⟩
    rcases shQuote_mem t '>' hcx with h'' | h'' | h''
    · exact h t ht h''
    · exact absurd h'' (by decide)
    · exact absurd h'' (by decide)

/-- Chunks of `splitChar` never contain the separator. -/
theorem splitChar_not_sep (c : Char) : ∀ (s : Str) (x : Str), x ∈ splitChar c s → c ∉ x := by
  intro s
  induction s with
  | nil =>
    intro x hx
    simp [splitChar] at hx
    subst hx
    simp
  | cons d rest ih =>
    intro x hx
    rw [splitChar_cons] at hx
    by_cases hd : d = c
    · rw [if_pos hd] at hx
      rcases List.mem_cons.mp hx with rfl | hx'
      · simp
      · exact ih x hx'
    · rw [if_neg hd] at hx
      cases hsp : splitChar c rest with
      | nil => exact absurd hsp (splitChar_ne_nil c rest)
      | cons t ts =>
        rw [hsp] at hx
        rcases List.mem_cons.mp hx with rfl | hx'
        · intro hmem
          rcases List.mem_cons.mp hmem with heq | hmem'
          · exact hd heq.symm
          · exact ih t (hsp ▸ List.mem_cons_self ..) hmem'
        · exact ih x (hsp ▸ List.mem_cons_of_mem _ hx')

/-- A parse error never produces an append operator in the single `>`
branch: restatement of the branch order as an absence fact. -/
theorem not_hasGG_of_sf_none (u : Str) (h : splitFirst (str ">>") u = none) :
    ¬ hasGG u := by
  unfold hasGG
  rw [h]
  simp

/-- The well-formedness facts a successful segment parse guarantees:
no token and no target contains a pipe; a target is nonempty and
whitespace-free; in truncate or plain mode the tokens contain no `>` and
the target no `>>`. -/
theorem parseSeg_wf (u : Str) (stg : Stage) (hbar : '|' ∉ u)
    (h : parseSeg u = .ok stg) :
    (∀ t ∈ stg.argv, '|' ∉ t) ∧
    (∀ p, stg.out_path = some p →
      p ≠ [] ∧ (∀ c ∈ p, isPyWs c = false) ∧ '|' ∉ p) ∧
    (stg.append = false →
      (∀ t ∈ stg.argv, '>' ∉ t) ∧ (∀ p, stg.out_path = some p → ¬ hasGG p)) := by
  have houtfacts : ∀ (a b : Str), u = a ++ b → ∀ p, firstOutToken b = some p →
      p ≠ [] ∧ (∀ c ∈ p, isPyWs c = false) ∧ '|' ∉ p ∧ (¬ hasGG u → ¬ hasGG p) := by
    intro a b hdec p hp
    unfold firstOutToken at hp
    cases hfs : pySplit (pyStrip b) with
    | nil => rw [hfs] at hp; cases hp
    | cons t0 ts0 =>
      rw [hfs] at hp
      injection hp with hp
      subst hp
      obtain ⟨hne, hnw, x, y, hxy⟩ :=
        (pySplit_parts (pyStrip b)).1 t0 (hfs ▸ List.mem_cons_self ..)
      refine ⟨hne, hnw, ?_, ?_⟩
      · intro hmem
        apply hbar
        have h1 : '|' ∈ pyStrip b := hxy ▸ List.mem_append_left _ (List.mem_append_right _ hmem)
        rw [hdec]
        exact List.mem_append_right _ (pyStrip_subset h1)
      · intro hnogg hggp
        apply hnogg
        have h1 : hasGG (pyStrip b) := hxy ▸ hasGG_of_decomp x t0 y hggp
        obtain ⟨x', y', hb⟩ := pyStrip_infix b
        have h2 : hasGG b := hb ▸ hasGG_of_decomp x' (pyStrip b) y' h1
        have h3 : hasGG (a ++ b ++ []) := hasGG_of_decomp a b [] h2
        rw [hdec]
        simpa using h3
  have htoks : ∀ (a : Str) (argv : List Str), shlexSplit a = .ok argv →
      (∀ c ∈ a, c ∈ u) → ∀ t ∈ argv, '|' ∉ t := by
    intro a argv hs hsub t ht hmem
    exact scan_chars (fun c => c ≠ '|') (by decide) a .ready [] [] argv
      (fun c hc heq => hbar (heq ▸ hsub c hc)) (by simp) (by simp) hs t ht '|' hmem rfl
  have hgtoks : ∀ (a : Str) (argv : List Str), shlexSplit a = .ok argv →
      '>' ∉ a → ∀ t ∈ argv, '>' ∉ t := by
    intro a argv hs hgta t ht hmem
    exact scan_chars (fun c => c ≠ '>') (by decide) a .ready [] [] argv
      (fun c hc heq => hgta (heq ▸ hc)) (by simp) (by simp) hs t ht '>' hmem rfl
  rcases hgg : splitFirst (str ">>") u with _ | ⟨a, b⟩
  · rcases hg : splitFirst (str ">") u with _ | ⟨a, b⟩
    · simp only [parseSeg, hgg, hg] at h
      cases hs : shlexSplit u with
      | error e => rw [hs] at h; cases h
      | ok argv =>
        rw [hs] at h
        simp only [Except.map] at h
        cases h
        have hgt : '>' ∉ u := by
          rw [show str ">" = ['>'] from rfl] at hg
          exact (sf_single_none_iff '>' u).mp hg
        refine ⟨htoks u argv hs (fun c hc => hc), ?_, ?_⟩
        · intro p hp; cases hp
        · intro _
          exact ⟨hgtoks u argv hs hgt, fun p hp => by cases hp⟩
    · simp only [parseSeg, hgg, hg] at h
      cases hs : shlexSplit a with
      | error e => rw [hs] at h; cases h
      | ok argv =>
        rw [hs] at h
        simp only [Except.map] at h
        cases h
        have hdec := splitFirst_eq hg
        have hdec' : u = (a ++ str ">") ++ b := hdec
        have hsub : ∀ c ∈ a, c ∈ u := by
          intro c hc
          rw [hdec]
          exact List.mem_append_left _ (List.mem_append_left _ hc)
        have hgta : '>' ∉ a := by
          rw [show str ">" = ['>'] from rfl] at hg
          exact sf_single_before '>' hg
        have hnogg : ¬ hasGG u := not_hasGG_of_sf_none u hgg
        refine ⟨htoks a argv hs hsub, ?_, ?_⟩
        · intro p hp
          obtain ⟨h1, h2, h3, _⟩ := houtfacts (a ++ str ">") b hdec' p hp
          exact ⟨h1, h2, h3⟩
        · intro _
          refine ⟨hgtoks a argv hs hgta, ?_⟩
          intro p hp
          obtain ⟨_, _, _, h4⟩ := houtfacts (a ++ str ">") b hdec' p hp
          exact h4 hnogg
  · simp only [parseSeg, hgg] at h
    cases hs : shlexSplit a with
    | error e => rw [hs] at h; cases h
    | ok argv =>
      rw [hs] at h
      simp only [Except.map] at h
      cases h
      have hdec := splitFirst_eq hgg
      have hdec' : u = (a ++ str ">>") ++ b := hdec
      have hsub : ∀ c ∈ a, c ∈ u := by
        intro c hc
        rw [hdec]
        exact List.mem_append_left _ (List.mem_append_left _ hc)
      refine ⟨htoks a argv hs hsub, ?_, ?_⟩
      · intro p hp
        obtain ⟨h1, h2, h3, _⟩ := houtfacts (a ++ str ">>") b hdec' p hp
        exact ⟨h1, h2, h3⟩
      · intro hfalse
        cases hfalse

/-- The reconstruction of a nonempty argument vector is nonempty. -/
theorem qtokens_ne_nil (t : Str) (ts : List Str) :
    interc (str " ") (List.map shQuote (t :: ts)) ≠ [] := by
  cases ts with
  | nil => show shQuote t ≠ []; simp [shQuote]
  | cons y r =>
    rw [show interc (str " ") (List.map shQuote (t :: y :: r)) = shQuote t ++ str " " ++ interc (str " ") (List.map shQuote (y :: r)) from rfl]
    simp [shQuote]

/-- The reconstruction of a nonempty argument vector starts with a
quote. -/
theorem qtokens_head (t : Str) (ts : List Str) :
    (interc (str " ") (List.map shQuote (t :: ts))).head? = some '\'' := by
  cases ts with
  | nil => rfl
  | cons y r => rfl

/-- The reconstruction of a nonempty argument vector ends with a
quote. -/
theorem qtokens_last (t : Str) (ts : List Str) :
    (interc (str " ") (List.map shQuote (t :: ts))).getLast? = some '\'' := by
  induction ts generalizing t with
  | nil =>
    show (shQuote t).getLast? = some '\''
    rw [show shQuote t = ('\'' :: escQ t) ++ ['\''] by simp [shQuote]]
    exact List.getLast?_concat _
  | cons y r ih =>
    rw [show interc (str " ") (List.map shQuote (t :: y :: r)) = shQuote t ++ str " " ++ interc (str " ") (List.map shQuote (y :: r)) from rfl]
    rw [List.getLast?_append_of_ne_nil _ (qtokens_ne_nil y r)]
    exact ih y

/-- View of `parseSeg` when the append operator is found. -/
theorem parseSeg_gg_view (s a b : Str) (h : splitFirst (str ">>") s = some (a, b)) :
    parseSeg s = (shlexSplit a).map (fun argv => ⟨argv, firstOutToken b, true⟩) := by
  unfold parseSeg
  rw [h]

/-- View of `parseSeg` when only the truncate operator is found. -/
theorem parseSeg_g_view (s a b : Str) (h1 : splitFirst (str ">>") s = none)
    (h2 : splitFirst (str ">") s = some (a, b)) :
    parseSeg s = (shlexSplit a).map (fun argv => ⟨argv, firstOutToken b, false⟩) := by
  unfold parseSeg
  rw [h1, h2]

/-- View of `parseSeg` when no operator is found. -/
theorem parseSeg_plain_view (s : Str) (h1 : splitFirst (str ">>") s = none)
    (h2 : splitFirst (str ">") s = none) :
    parseSeg s = (shlexSplit s).map (fun argv => ⟨argv, none, false⟩) := by
  unfold parseSeg
  rw [h1, h2]

/-- Re-parsing the stripped reconstruction of a single stage returns the
stage, for stages satisfying the parse-time well-formedness facts and the
goodness condition. -/
theorem parseSeg_recon (stg : Stage)
    (hout : ∀ p, stg.out_path = some p → p ≠ [] ∧ (∀ c ∈ p, isPyWs c = false))
    (htrunc : stg.append = false →
      (∀ t ∈ stg.argv, '>' ∉ t) ∧ (∀ p, stg.out_path = some p → ¬ hasGG p))
    (good : GoodStage stg) :
    parseSeg (pyStrip (reconSeg stg)) = .ok stg := by
  obtain ⟨argv, out, app⟩ := stg
  cases out with
  | none =>
    have happ : app = false := good.1 rfl
    subst happ
    have hrs : reconSeg ⟨argv, none, false⟩ = interc (str " ") (List.map shQuote argv) := by
      show interc (str " ") (List.map shQuote argv) ++ [] = _
      simp
    rw [hrs]
    cases argv with
    | nil => rfl
    | cons t ts =>
      have hgt : '>' ∉ interc (str " ") (List.map shQuote (t :: ts)) :=
        gt_not_mem_qtokens (t :: ts) (htrunc rfl).1
      have hstrip : pyStrip (interc (str " ") (List.map shQuote (t :: ts))) =
          interc (str " ") (List.map shQuote (t :: ts)) := by
        apply pyStrip_no_ws_ends
        · intro c hc
          rw [qtokens_head] at hc
          injection hc with hc
          subst hc
          rfl
        · intro c hc
          rw [qtokens_last] at hc
          injection hc with hc
          subst hc
          rfl
      rw [hstrip]
      have hngg : ¬ hasGG (interc (str " ") (List.map shQuote (t :: ts))) := by
        intro hg
        obtain ⟨x, y, hxy⟩ := (hasGG_iff_exists _).mp hg
        exact hgt (hxy ▸ List.mem_append_right _ (List.mem_cons_self ..))
      rw [parseSeg_plain_view _ (splitFirst_gg_none _ hngg)
            (by rw [show str ">" = ['>'] from rfl]; exact (sf_single_none_iff '>' _).mpr hgt)]
      rw [shlexSplit_tokens]
      rfl
  | some p =>
    obtain ⟨hpne, hpnw⟩ := hout p rfl
    cases app with
    | true =>
      cases argv with
      | nil =>
        have hshape : reconSeg ⟨[], some p, true⟩ = [' '] ++ ('>' :: '>' :: ' ' :: p) ++ [] := by
          show [] ++ (str " >> " ++ p) = _
          simp [str]
        rw [hshape, pyStrip_pad [' '] _ []
              (by intro c hc; simp at hc; subst hc; rfl) (by simp)]
        have hstrip : pyStrip ('>' :: '>' :: ' ' :: p) = '>' :: '>' :: ' ' :: p := by
          apply pyStrip_no_ws_ends
          · intro c hc
            injection hc with hc
            subst hc
            rfl
          · intro c hc
            rw [show ('>' :: '>' :: ' ' :: p : Str) = ['>', '>', ' '] ++ p from rfl,
                List.getLast?_append_of_ne_nil _ hpne] at hc
            exact hpnw c (mem_of_getLast?_eq hc)
        rw [hstrip]
        have hsf := sf_gg_some [] (' ' :: p) (by decide)
        rw [List.nil_append] at hsf
        rw [parseSeg_gg_view _ [] (' ' :: p) hsf]
        rw [show shlexSplit [] = Except.ok [] from rfl]
        simp only [Except.map]
        rw [firstOutToken_sp p hpne hpnw]
      | cons t ts =>
        have hQnogg : ¬ hasGG (interc (str " ") (List.map shQuote (t :: ts))) :=
          hasGG_qtokens (t :: ts) (fun z hz => good.2 z hz)
        have hshape : reconSeg ⟨t :: ts, some p, true⟩ =
            (interc (str " ") (List.map shQuote (t :: ts)) ++ [' ']) ++ '>' :: '>' :: ' ' :: p := by
          show interc (str " ") (List.map shQuote (t :: ts)) ++ (str " >> " ++ p) = _
          rw [show (str " >> " ++ p : Str) = [' '] ++ ('>' :: '>' :: ' ' :: p) from rfl,
              ← List.append_assoc]
        rw [hshape]
        have hstrip : pyStrip ((interc (str " ") (List.map shQuote (t :: ts)) ++ [' ']) ++ '>' :: '>' :: ' ' :: p) = (interc (str " ") (List.map shQuote (t :: ts)) ++ [' ']) ++ '>' :: '>' :: ' ' :: p := by
          apply pyStrip_no_ws_ends
          · intro c hc
            cases hQ : interc (str " ") (List.map shQuote (t :: ts)) with
            | nil => exact absurd hQ (qtokens_ne_nil t ts)
            | cons q qs =>
              have hh := qtokens_head t ts
              rw [hQ] at hh hc
              injection hh with hh
              subst hh
              injection hc with hc
              subst hc
              rfl
          · intro c hc
            rw [show (interc (str " ") (List.map shQuote (t :: ts)) ++ [' ']) ++ '>' :: '>' :: ' ' :: p = (interc (str " ") (List.map shQuote (t :: ts)) ++ [' ', '>', '>', ' ']) ++ p by simp,
                List.getLast?_append_of_ne_nil _ hpne] at hc
            exact hpnw c (mem_of_getLast?_eq hc)
        rw [hstrip]
        have hnogg' : ¬ hasGG ((interc (str " ") (List.map shQuote (t :: ts)) ++ [' ']) ++ ['>']) := by
          intro hg
          rcases hasGG_append_elim _ _ hg with h' | h' | ⟨h1, h2⟩
          · rcases hasGG_append_elim _ _ h' with h'' | h'' | ⟨g1, g2⟩
            · exact hQnogg h''
            · exact absurd h'' (by decide)
            · exact absurd g2 (by decide)
          · exact absurd h' (by decide)
          · rw [List.getLast?_concat] at h1
            exact absurd h1 (by decide)
        rw [parseSeg_gg_view _ _ (' ' :: p) (sf_gg_some _ (' ' :: p) hnogg')]
        rw [shlexSplit_tokens_sp]
        simp only [Except.map]
        rw [firstOutToken_sp p hpne hpnw]
    | false =>
      obtain ⟨hgt_t, hnoggp⟩ := htrunc rfl
      have hpnogg : ¬ hasGG p := hnoggp p rfl
      cases argv with
      | nil =>
        have hshape : reconSeg ⟨[], some p, false⟩ = [' '] ++ ('>' :: ' ' :: p) ++ [] := by
          show [] ++ (str " > " ++ p) = _
          simp [str]
        rw [hshape, pyStrip_pad [' '] _ []
              (by intro c hc; simp at hc; subst hc; rfl) (by simp)]
        have hstrip : pyStrip ('>' :: ' ' :: p) = '>' :: ' ' :: p := by
          apply pyStrip_no_ws_ends
          · intro c hc
            injection hc with hc
            subst hc
            rfl
          · intro c hc
            rw [show ('>' :: ' ' :: p : Str) = ['>', ' '] ++ p from rfl,
                List.getLast?_append_of_ne_nil _ hpne] at hc
            exact hpnw c (mem_of_getLast?_eq hc)
        rw [hstrip]
        have hngg : ¬ hasGG ('>' :: ' ' :: p) := by
          intro hg
          rcases hasGG_elim '>' _ hg with ⟨_, hh⟩ | hg'
          · injection hh with hh
            exact absurd hh (by decide)
          · rcases hasGG_elim ' ' _ hg' with ⟨h1, _⟩ | hg''
            · exact absurd h1 (by decide)
            · exact hpnogg hg''
        have hsf := sf_single_some [] '>' (' ' :: p) (by simp)
        rw [List.nil_append] at hsf
        rw [parseSeg_g_view _ [] (' ' :: p) (splitFirst_gg_none _ hngg)
              (by rw [show str ">" = ['>'] from rfl]; exact hsf)]
        rw [show shlexSplit [] = Except.ok [] from rfl]
        simp only [Except.map]
        rw [firstOutToken_sp p hpne hpnw]
      | cons t ts =>
        have hQgt : '>' ∉ interc (str " ") (List.map shQuote (t :: ts)) :=
          gt_not_mem_qtokens (t :: ts) hgt_t
        have hQnogg : ¬ hasGG (interc (str " ") (List.map shQuote (t :: ts))) := by
          intro hg
          obtain ⟨x, y, hxy⟩ := (hasGG_iff_exists _).mp hg
          exact hQgt (hxy ▸ List.mem_append_right _ (List.mem_cons_self ..))
        have hshape : reconSeg ⟨t :: ts, some p, false⟩ =
            (interc (str " ") (List.map shQuote (t :: ts)) ++ [' ']) ++ '>' :: ' ' :: p := by
          show interc (str " ") (List.map shQuote (t :: ts)) ++ (str " > " ++ p) = _
          rw [show (str " > " ++ p : Str) = [' '] ++ ('>' :: ' ' :: p) from rfl,
              ← List.append_assoc]
        rw [hshape]
        have hstrip : pyStrip ((interc (str " ") (List.map shQuote (t :: ts)) ++ [' ']) ++ '>' :: ' ' :: p) = (interc (str " ") (List.map shQuote (t :: ts)) ++ [' ']) ++ '>' :: ' ' :: p := by
          apply pyStrip_no_ws_ends
          · intro c hc
            cases hQ : interc (str " ") (List.map shQuote (t :: ts)) with
            | nil => exact absurd hQ (qtokens_ne_nil t ts)
            | cons q qs =>
              have hh := qtokens_head t ts
              rw [hQ] at hh hc
              injection hh with hh
              subst hh
              injection hc with hc
              subst hc
              rfl
          · intro c hc
            rw [show (interc (str " ") (List.map shQuote (t :: ts)) ++ [' ']) ++ '>' :: ' ' :: p = (interc (str " ") (List.map shQuote (t :: ts)) ++ [' ', '>', ' ']) ++ p by simp,
                List.getLast?_append_of_ne_nil _ hpne] at hc
            exact hpnw c (mem_of_getLast?_eq hc)
        rw [hstrip]
        have hngg : ¬ hasGG ((interc (str " ") (List.map shQuote (t :: ts)) ++ [' ']) ++ '>' :: ' ' :: p) := by
          intro hg
          rcases hasGG_append_elim _ _ hg with h' | h' | ⟨h1, h2⟩
          · rcases hasGG_append_elim _ _ h' with h'' | h'' | ⟨g1, g2⟩
            · exact hQnogg h''
            · exact absurd h'' (by decide)
            · exact absurd g2 (by decide)
          · rcases hasGG_elim '>' _ h' with ⟨_, hh⟩ | hg'
            · injection hh with hh
              exact absurd hh (by decide)
            · rcases hasGG_elim ' ' _ hg' with ⟨g1, _⟩ | hg''
              · exact absurd g1 (by decide)
              · exact hpnogg hg''
          · rw [List.getLast?_concat] at h1
            exact absurd h1 (by decide)
        have hgtq : '>' ∉ interc (str " ") (List.map shQuote (t :: ts)) ++ [' '] := by
          intro hmem
          rcases List.mem_append.mp hmem with h' | h'
          · exact hQgt h'
          · simp at h'
        rw [parseSeg_g_view _ _ (' ' :: p) (splitFirst_gg_none _ hngg)
              (by rw [show str ">" = ['>'] from rfl]
                  exact sf_single_some _ '>' (' ' :: p) hgtq)]
        rw [shlexSplit_tokens_sp]
        simp only [Except.map]
        rw [firstOutToken_sp p hpne hpnw]

/-- Splitting at a separator occurrence splits the concatenation. -/
theorem splitChar_append (c : Char) : ∀ (a b : Str),
    splitChar c (a ++ c :: b) = splitChar c a ++ splitChar c b := by
  intro a
  induction a with
  | nil =>
    intro b
    rw [List.nil_append, splitChar_cons, if_pos rfl]
    rfl
  | cons d a' ih =>
    intro b
    rw [List.cons_append, splitChar_cons, splitChar_cons]
    by_cases hd : d = c
    · rw [if_pos hd, if_pos hd, ih]
      rfl
    · rw [if_neg hd, if_neg hd, ih]
      cases hsp : splitChar c a' with
      | nil => exact absurd hsp (splitChar_ne_nil c a')
      | cons t ts => rfl

/-- A text without the separator is a single chunk. -/
theorem splitChar_no_sep (c : Char) : ∀ (s : Str), c ∉ s → splitChar c s = [s] := by
  intro s
  induction s with
  | nil => intro _; rfl
  | cons d rest ih =>
    intro h
    rw [splitChar_cons, if_neg (fun hd => h (by simp [hd]))]
    rw [ih (fun hm => h (List.mem_cons_of_mem _ hm))]

/-- Splitting the padded, pipe-joined reconstruction and stripping each
chunk recovers the stripped chunks. -/
theorem split_strip_recon : ∀ (xs : List Str) (pad : Str),
    (∀ c ∈ pad, isPyWs c = true) → (∀ x ∈ xs, '|' ∉ x) → xs ≠ [] →
    List.map pyStrip (splitChar '|' (pad ++ interc (str " | ") xs)) =
      List.map pyStrip xs := by
  intro xs
  induction xs with
  | nil => intro pad _ _ h; exact absurd rfl h
  | cons x xs ih =>
    intro pad hpad hbar _
    cases xs with
    | nil =>
      rw [show interc (str " | ") [x] = x from rfl]
      have hnb : '|' ∉ pad ++ x := by
        intro hm
        rcases List.mem_append.mp hm with h' | h'
        · exact absurd (hpad '|' h') (by decide)
        · exact hbar x (by simp) h'
      rw [splitChar_no_sep '|' _ hnb]
      show [pyStrip (pad ++ x)] = [pyStrip x]
      rw [show pad ++ x = pad ++ x ++ [] by simp, pyStrip_pad pad x [] hpad (by simp)]
    | cons y r =>
      rw [show interc (str " | ") (x :: y :: r) = x ++ str " | " ++ interc (str " | ") (y :: r) from rfl]
      rw [show pad ++ (x ++ str " | " ++ interc (str " | ") (y :: r)) = (pad ++ x ++ [' ']) ++ '|' :: (' ' :: interc (str " | ") (y :: r)) by rw [show (str " | " : Str) = ' ' :: '|' :: [' '] from rfl]; simp]
      rw [splitChar_append]
      have hnb : '|' ∉ pad ++ x ++ [' '] := by
        intro hm
        rcases List.mem_append.mp hm with h' | h'
        · rcases List.mem_append.mp h' with h'' | h''
          · exact absurd (hpad '|' h'') (by decide)
          · exact hbar x (by simp) h''
        · simp at h'
      rw [splitChar_no_sep '|' _ hnb, List.map_append]
      rw [show List.map pyStrip [pad ++ x ++ [' ']] = [pyStrip x] by
            rw [show (List.map pyStrip [pad ++ x ++ [' ']] : List Str) = [pyStrip (pad ++ x ++ [' '])] from rfl, pyStrip_pad pad x [' '] hpad (by intro c hc; simp at hc; subst hc; rfl)]]
      have ih' := ih [' '] (by intro c hc; simp at hc; subst hc; rfl)
        (fun z hz => hbar z (List.mem_cons_of_mem _ hz)) (by simp)
      rw [show ([' '] ++ interc (str " | ") (y :: r) : Str) = ' ' :: interc (str " | ") (y :: r) from rfl] at ih'
      rw [ih']
      rfl

/-- The reconstruction of a stage whose tokens and target avoid the
pipe character avoids the pipe character. -/
theorem reconSeg_no_bar (stg : Stage)
    (hbar_t : ∀ t ∈ stg.argv, '|' ∉ t)
    (hbar_p : ∀ p, stg.out_path = some p → '|' ∉ p) :
    '|' ∉ reconSeg stg := by
  obtain ⟨argv, out, app⟩ := stg
  intro hm
  cases out with
  | none =>
    simp only [reconSeg] at hm
    rw [List.append_nil] at hm
    rcases interc_mem _ _ _ hm with h'' | ⟨z, hz, hcz⟩
    · exact absurd h'' (by decide)
    · rcases List.mem_map.mp hz with ⟨t, ht, rfl⟩
      rcases shQuote_mem t '|' hcz with h3 | h3 | h3
      · exact hbar_t t ht h3
      · exact absurd h3 (by decide)
      · exact absurd h3 (by decide)
  | some p =>
    simp only [reconSeg] at hm
    rcases List.mem_append.mp hm with h' | h'
    · rcases interc_mem _ _ _ h' with h'' | ⟨z, hz, hcz⟩
      · exact absurd h'' (by decide)
      · rcases List.mem_map.mp hz with ⟨t, ht, rfl⟩
        rcases shQuote_mem t '|' hcz with h3 | h3 | h3
        · exact hbar_t t ht h3
        · exact absurd h3 (by decide)
        · exact absurd h3 (by decide)
    · rcases List.mem_append.mp h' with h'' | h''
      · cases app with
        | true => rw [if_pos rfl] at h''; exact absurd h'' (by decide)
        | false => rw [if_neg (by simp)] at h''; exact absurd h'' (by decide)
      · exact hbar_p p rfl h''

/-- Pointwise re-parsing of a mapped list. -/
theorem mapExcept_map_id {f : β → Except ε α} {F : α → β} :
    ∀ (xs : List α), (∀ x ∈ xs, f (F x) = .ok x) →
      mapExcept f (List.map F xs) = .ok xs := by
  intro xs
  induction xs with
  | nil => intro _; rfl
  | cons x xs ih =>
    intro hp
    rw [List.map_cons]
    simp [mapExcept, hp x (by simp), ih (fun z hz => hp z (List.mem_cons_of_mem _ hz))]

/-- Claim C7, counterexample to the claim as stated: the line `cmd >>`
parses to a stage that records the append operator but no target
(`out_path = none`, `append = true`).  Its reconstruction has no
redirection operator to re-insert (the stage has no redirection target),
so re-parsing yields a stage with `append = false`: the redirection mode
does not survive the round trip. -/
theorem c7_cex :
    parse_command_line (str "cmd >>") = .ok [⟨[str "cmd"], none, true⟩] ∧
    reconstruct [⟨[str "cmd"], none, true⟩] = str "'cmd'" ∧
    parse_command_line (reconstruct [⟨[str "cmd"], none, true⟩]) =
      .ok [⟨[str "cmd"], none, false⟩] ∧
    (⟨[str "cmd"], none, true⟩ : Stage) ≠ ⟨[str "cmd"], none, false⟩ :=
  ⟨rfl, rfl, rfl, by decide⟩

/-- Claim C7 (amended): for every successfully parsed pipeline in which
no stage records an append operator without a target and no argument
token contains the two-character substring `>>`, re-parsing the textual
reconstruction (quoted argv joined with spaces, pipes and redirection
operators re-inserted) yields exactly the same pipeline: same stage
count, same argv content, same redirection path and mode. -/
theorem c7_amended (line : Str) (P : List Stage)
    (h : parse_command_line line = .ok P)
    (good : ∀ stg ∈ P, GoodStage stg) :
    parse_command_line (reconstruct P) = .ok P := by
  have hwf : ∀ stg ∈ P, (∀ t ∈ stg.argv, '|' ∉ t) ∧
      (∀ p, stg.out_path = some p →
        p ≠ [] ∧ (∀ c ∈ p, isPyWs c = false) ∧ '|' ∉ p) ∧
      (stg.append = false →
        (∀ t ∈ stg.argv, '>' ∉ t) ∧ (∀ p, stg.out_path = some p → ¬ hasGG p)) := by
    intro stg hstg
    obtain ⟨x, hx, hfx⟩ := mapExcept_ok_mem h stg hstg
    rcases List.mem_map.mp hx with ⟨seg, hseg, rfl⟩
    refine parseSeg_wf (pyStrip seg) stg ?_ hfx
    intro hm
    exact splitChar_not_sep '|' line seg hseg (pyStrip_subset hm)
  have hsegok : ∀ stg ∈ P, parseSeg (pyStrip (reconSeg stg)) = .ok stg := by
    intro stg hstg
    obtain ⟨h1, h2, h3⟩ := hwf stg hstg
    exact parseSeg_recon stg (fun p hp => ⟨(h2 p hp).1, (h2 p hp).2.1⟩) h3 (good stg hstg)
  have hnobar : ∀ x ∈ P.map reconSeg, '|' ∉ x := by
    intro x hx
    rcases List.mem_map.mp hx with ⟨stg, hstg, rfl⟩
    obtain ⟨h1, h2, _⟩ := hwf stg hstg
    exact reconSeg_no_bar stg h1 (fun p hp => (h2 p hp).2.2)
  have hne : P ≠ [] := by
    intro hP
    have hlen := mapExcept_ok_length h
    rw [hP] at hlen
    simp at hlen
    exact splitChar_ne_nil '|' line (List.length_eq_zero.mp hlen.symm)
  have hmapne : P.map reconSeg ≠ [] := by simpa using hne
  unfold parse_command_line reconstruct
  have hsplit := split_strip_recon (P.map reconSeg) [] (by simp) hnobar hmapne
  rw [List.nil_append] at hsplit
  rw [hsplit, List.map_map]
  exact mapExcept_map_id P hsegok

/-- Claim C7, witness: the amended theorem evaluated on the pipeline of
`ls -a | grep 'x y' > out.txt`, whose reconstruction
`'ls' '-a' | 'grep' 'x y' > out.txt` re-parses to the same two stages. -/
theorem c7_witness :
    parse_command_line (reconstruct
      [⟨[str "ls", str "-a"], none, false⟩,
       ⟨[str "grep", str "x y"], some (str "out.txt"), false⟩]) =
    .ok [⟨[str "ls", str "-a"], none, false⟩,
         ⟨[str "grep", str "x y"], some (str "out.txt"), false⟩] :=
  c7_amended (str "ls -a | grep 'x y' > out.txt")
    [⟨[str "ls", str "-a"], none, false⟩,
     ⟨[str "grep", str "x y"], some (str "out.txt"), false⟩] rfl (by decide)
